import Mathlib

/-!
# Shift Automator — verification of the automation/orchestration core

A shallow embedding, in Lean 4, of the algorithmic core of the
`shift-automator-pro` repository (`src/scheduler.py`, `src/word_processor.py`,
`src/main.py`, `src/constants.py`), together with theorems settling the
specification claims about it.

Modelling conventions:
* Python `datetime.date` values are `Date` records (year/month/day) with the
  proleptic-Gregorian ordinal (`to_ordinal`, matching `date.toordinal()`) and
  `weekday` (`Monday = 0 … Sunday = 6`, matching `date.weekday()`).
* Machine-level effects (COM round trips, `win32print` queries, the
  cancellation `threading.Event`, per-job print outcomes) are passed in as
  explicit oracles, so the control flow of the Python source can be embedded
  as pure functions.
* Text manipulated by Word's `Find.Execute` is `List Char`; a document is the
  list of story-range chains that `doc.StoryRanges` / `NextStoryRange`
  enumerate.
-/

namespace ShiftAutomator

/-! ## Dates (embedding of Python `datetime.date` as used by `src/scheduler.py`) -/

/-- A Python `datetime.date`-like value: a year/month/day triple. -/
structure Date where
  year : Nat
  month : Nat
  day : Nat
deriving DecidableEq, Repr

/-- Gregorian leap-year rule (as in Python's `calendar.isleap`). -/
def is_leap_year (y : Nat) : Bool :=
  y % 4 == 0 && (y % 100 != 0 || y % 400 == 0)

/-- Number of days in month `m` of year `y` (1-indexed months). -/
def days_in_month (y m : Nat) : Nat :=
  match m with
  | 1 => 31
  | 2 => if is_leap_year y then 29 else 28
  | 3 => 31
  | 4 => 30
  | 5 => 31
  | 6 => 30
  | 7 => 31
  | 8 => 31
  | 9 => 30
  | 10 => 31
  | 11 => 30
  | 12 => 31
  | _ => 0

/-- Days in year `y` strictly before month `m`. -/
def days_before_month (y m : Nat) : Nat :=
  ((List.range (m - 1)).map (fun i => days_in_month y (i + 1))).sum

/-- Days strictly before year `y` in the proleptic Gregorian calendar
(as in CPython's `datetime._days_before_year`). -/
def days_before_year (y : Nat) : Int :=
  365 * ((y : Int) - 1) + (((y - 1) / 4 : Nat) : Int)
    - (((y - 1) / 100 : Nat) : Int) + (((y - 1) / 400 : Nat) : Int)

/-- `date.toordinal()`: day number with `0001-01-01 ↦ 1`. -/
def to_ordinal (d : Date) : Int :=
  days_before_year d.year + (days_before_month d.year d.month : Int) + (d.day : Int)

/-- `date.weekday()`: `Monday = 0 … Sunday = 6`. -/
def weekday (d : Date) : Nat :=
  ((to_ordinal d + 6) % 7).toNat

/-- The range constraints `datetime.date` itself enforces. -/
def is_valid_date (d : Date) : Prop :=
  1 ≤ d.year ∧ d.year ≤ 9999 ∧ 1 ≤ d.month ∧ d.month ≤ 12 ∧
    1 ≤ d.day ∧ d.day ≤ days_in_month d.year d.month

instance (d : Date) : Decidable (is_valid_date d) := by
  unfold is_valid_date; infer_instance

/-- `start + timedelta(days := 1)`: successor date, rolling over months/years. -/
def succ_date (d : Date) : Date :=
  if d.day < days_in_month d.year d.month then
    ⟨d.year, d.month, d.day + 1⟩
  else if d.month < 12 then
    ⟨d.year, d.month + 1, 1⟩
  else
    ⟨d.year + 1, 1, 1⟩

/-- `start + timedelta(days := n)` (iterated successor). -/
def add_days (n : Nat) (d : Date) : Date :=
  match n with
  | 0 => d
  | n + 1 => add_days n (succ_date d)

-- Sanity checks against CPython: `date(1,1,1).toordinal() == 1` (a Monday),
-- and `date(2026,1,15)` is a Thursday (`weekday() == 3`).

/-! ## `src/scheduler.py` -/

/-- `src/constants.py`: `THURSDAY = 3`. -/
def THURSDAY : Nat := 3

/-- `src/constants.py`: `MAX_DAYS_RANGE = 365`. -/
def MAX_DAYS_RANGE : Int := 365

/-- `calendar.day_name` (Monday first), used by `scheduler._EN_DAY_NAMES`. -/
def EN_DAY_NAMES : List String :=
  ["Monday", "Tuesday", "Wednesday", "Thursday", "Friday", "Saturday", "Sunday"]

/-- `calendar.month_name` (index 1 = January), used by `scheduler._EN_MONTH_NAMES`. -/
def EN_MONTH_NAMES : List String :=
  ["", "January", "February", "March", "April", "May", "June", "July",
   "August", "September", "October", "November", "December"]

/-- `scheduler.get_english_day_name`: `_EN_DAY_NAMES[dt.weekday()]`. -/
def get_english_day_name (dt : Date) : String :=
  EN_DAY_NAMES.getD (weekday dt) ""

/-- `scheduler.get_english_month_name`: `_EN_MONTH_NAMES[dt.month]`. -/
def get_english_month_name (dt : Date) : String :=
  EN_MONTH_NAMES.getD dt.month ""

/-- `scheduler.is_third_thursday`. -/
def is_third_thursday (dt : Date) : Bool :=
  if weekday dt ≠ THURSDAY then false
  else decide (15 ≤ dt.day ∧ dt.day ≤ 21)

/-- `scheduler.get_shift_template_name`; the `ValueError` is an `Except.error`. -/
def get_shift_template_name (dt : Date) (shift_type : String) : Except String String :=
  if shift_type ≠ "day" ∧ shift_type ≠ "night" then
    .error ("shift_type must be " ++ "day" ++ " or " ++ "night" ++ ", got " ++ shift_type)
  else
    let day_name := get_english_day_name dt
    if shift_type = "day" then
      .ok (if is_third_thursday dt then "THIRD Thursday" else day_name)
    else
      .ok (day_name ++ " Night")

/-- `scheduler.validate_date_range`. -/
def validate_date_range (start_date end_date : Date) : Bool × Option String :=
  if to_ordinal end_date < to_ordinal start_date then
    (false, some "End date cannot be before start date")
  else
    let total_days := to_ordinal end_date - to_ordinal start_date + 1
    if MAX_DAYS_RANGE < total_days then
      (false, some "Date range exceeds maximum allowed")
    else
      (true, none)

/-- `scheduler.get_date_range`: dates from `start_date` to `end_date` inclusive,
or the `ValueError` raised on an invalid range. -/
def get_date_range (start_date end_date : Date) : Except String (List Date) :=
  if (validate_date_range start_date end_date).1 = false then
    .error ((validate_date_range start_date end_date).2.getD "")
  else
    let delta := (to_ordinal end_date - to_ordinal start_date).toNat
    .ok ((List.range (delta + 1)).map (fun i => add_days i start_date))

/-! ## `src/main.py` — batch orchestration -/

/-- `main._compute_batch_size`: `(total_days, total_jobs)` with
`total_days = (end_date - start_date).days + 1` and `total_jobs = total_days * 2`. -/
def compute_batch_size (start_date end_date : Date) : Int × Int :=
  let total_days := to_ordinal end_date - to_ordinal start_date + 1
  (total_days, total_days * 2)

/-- One print job as attempted by `main._print_shift`. -/
structure Job where
  date : Date
  shift : String
  template : String
deriving DecidableEq, Repr

/-- `main.FailedOperation`. -/
structure FailedOperation where
  date : Date
  shift : String
  template : String
  error : Option String
deriving DecidableEq, Repr

/-- Terminal status of a batch run: the early-`return` path after a cancel
check (`_cancel_ui_update`, status "Cancelled") versus running the loop to
completion. -/
inductive BatchOutcome where
  | completed
  | cancelled
deriving DecidableEq, Repr

/-- Observable result of `main._process_batch`: jobs attempted (in order),
failure records accumulated, terminal status. -/
structure BatchResult where
  jobs : List Job
  failed_operations : List FailedOperation
  outcome : BatchOutcome
deriving DecidableEq, Repr

/-- Day-shift template name; `_process_batch` invokes
`get_shift_template_name(current_date, "day")`, which never raises for this
literal argument. -/
def day_template (dt : Date) : String :=
  ((get_shift_template_name dt "day").toOption).getD ""

/-- Night-shift template name (literal `"night"` argument, never raises). -/
def night_template (dt : Date) : String :=
  ((get_shift_template_name dt "night").toOption).getD ""

/-- The two jobs `_process_batch` builds for one date: day shift first,
night shift second. -/
def jobs_for_date (dt : Date) : List Job :=
  [⟨dt, "day", day_template dt⟩, ⟨dt, "night", night_template dt⟩]

/-- The loop body of `main._process_batch` over the date list, with the
environment made explicit:

* `print_res j` is the `(success, error)` pair `word_proc.print_document`
  returns for the `j`-th job (0-based `job_index`);
* `cancel r` is the value the `r`-th `self._cancel_event.is_set()` read
  observes (three reads per date: loop top, before the day shift, before the
  night shift).

On a read returning `True` the loop returns immediately with the "Cancelled"
status; otherwise each shift is attempted via `_print_shift`, which appends a
`FailedOperation` when `print_document` reports failure. -/
def process_batch_go (print_res : Nat → Bool × Option String) (cancel : Nat → Bool) :
    List Date → Nat → Nat → BatchResult
  | [], _, _ => ⟨[], [], .completed⟩
  | dt :: rest, r, j =>
    if cancel r then ⟨[], [], .cancelled⟩
    else
      let dayT := day_template dt
      if cancel (r + 1) then ⟨[], [], .cancelled⟩
      else
        let day_job : Job := ⟨dt, "day", dayT⟩
        let day_fail : List FailedOperation :=
          if (print_res j).1 then [] else [⟨dt, "day", dayT, (print_res j).2⟩]
        let nightT := night_template dt
        if cancel (r + 2) then ⟨[day_job], day_fail, .cancelled⟩
        else
          let night_job : Job := ⟨dt, "night", nightT⟩
          let night_fail : List FailedOperation :=
            if (print_res (j + 1)).1 then []
            else [⟨dt, "night", nightT, (print_res (j + 1)).2⟩]
          let tail := process_batch_go print_res cancel rest (r + 3) (j + 2)
          ⟨day_job :: night_job :: tail.jobs,
           day_fail ++ night_fail ++ tail.failed_operations,
           tail.outcome⟩

/-- `main._process_batch` restricted to its main loop, starting from read
index 0 and `job_index = 0`. -/
def process_batch (dates : List Date) (cancel : Nat → Bool)
    (print_res : Nat → Bool × Option String) : BatchResult :=
  process_batch_go print_res cancel dates 0 0

/-! ## `src/word_processor.py` — template resolution -/

/-- ASCII lower-casing of one character (the fragment of Python's
`str.lower()` relevant to the ASCII file names and error codes compared
by `word_processor.py`). -/
def ascii_lower_char (c : Char) : Char :=
  if 'A' ≤ c ∧ c ≤ 'Z' then Char.ofNat (c.toNat + 32) else c

/-- `s.lower()` (ASCII fragment). -/
def ascii_lower (s : String) : String :=
  ⟨s.data.map ascii_lower_char⟩

/-- `s.endswith(t)`. -/
def str_ends_with (s t : String) : Bool :=
  t.data.isSuffixOf s.data

/-- `p` is a prefix of `s` (on character lists). -/
def starts_with_list (p s : List Char) : Bool :=
  match p, s with
  | [], _ => true
  | _ :: _, [] => false
  | a :: ps, b :: ss => a == b && starts_with_list ps ss

/-- `p` occurs as a contiguous sublist of `s`. -/
def contains_list (p : List Char) : List Char → Bool
  | [] => p.isEmpty
  | c :: rest => starts_with_list p (c :: rest) || contains_list p rest

/-- `t in s` (Python substring test). -/
def str_contains (s t : String) : Bool :=
  contains_list t.data s.data

/-- `src/constants.py`: `DOCX_EXTENSION = ".docx"`. -/
def DOCX_EXTENSION : String := ".docx"

/-- One entry of `os.listdir(folder)`: the file's name together with the
outcome of `os.path.getsize` on it (`none` models the `OSError` branch). -/
structure FileEntry where
  name : String
  size : Option Nat
deriving DecidableEq, Repr

/-- The filesystem facts `find_template_file` consults: the result of
`validate_folder_path(folder)` and of `os.listdir(folder)` (`none` models the
`OSError` branch). -/
structure Folder where
  valid : Bool
  listing : Option (List FileEntry)
deriving DecidableEq, Repr

/-- The `for f in files` loop of `WordProcessor.find_template_file`:
skip non-`.docx` entries; on the first exact case-insensitive name match
return its name — unless the file is empty (`getsize == 0`) or its size
cannot be read, in which case return `None` immediately. -/
def find_template_loop (expected_filename : String) : List FileEntry → Option String
  | [] => none
  | f :: rest =>
    if str_ends_with (ascii_lower f.name) DOCX_EXTENSION = false then
      find_template_loop expected_filename rest
    else if ascii_lower f.name == ascii_lower expected_filename then
      match f.size with
      | some 0 => none
      | none => none
      | some (_ + 1) => some f.name
    else
      find_template_loop expected_filename rest

/-- `WordProcessor.find_template_file` (the returned value stands for
`os.path.join(folder, f)`; the folder component is fixed, so we return the
matched file name). -/
def find_template_file (folder : Folder) (template_name : String) : Option String :=
  if folder.valid = false then none
  else
    match folder.listing with
    | none => none
    | some files => find_template_loop (template_name ++ DOCX_EXTENSION) files

/-! ## `src/word_processor.py` — `safe_com_call` retry classification -/

/-- `src/constants.py`: `COM_RETRIES = 5`. -/
def COM_RETRIES : Nat := 5

/-- `src/constants.py`: `COM_RETRY_DELAY = 1` (seconds). -/
def COM_RETRY_DELAY : Int := 1

/-- Modelled from the spec: `COM_ERROR_RPC_CALL_REJECTED` is imported by
`word_processor.py` but missing from `src/constants.py`; its value is the
HRESULT text of `RPC_E_CALL_REJECTED` (`0x80010001`), the code the adjacent
`_verify_word_connection` also matches textually. -/
def COM_ERROR_RPC_CALL_REJECTED : String := "0x80010001"

/-- Modelled from the spec: `COM_ERROR_RPC_SERVERCALL_RETRYLATER` is imported
by `word_processor.py` but missing from `src/constants.py`; its value is the
HRESULT text of `RPC_E_SERVERCALL_RETRYLATER` (`0x8001010A`). -/
def COM_ERROR_RPC_SERVERCALL_RETRYLATER : String := "0x8001010A"

/-- The transient-error test of `safe_com_call`:
`"rejected" in error_str or RETRYLATER.lower() in error_str or
CALL_REJECTED.lower() in error_str` where `error_str = str(e).lower()`. -/
def transient_com_indicator (msg : String) : Bool :=
  let error_str := ascii_lower msg
  str_contains error_str "rejected" ||
    str_contains error_str (ascii_lower COM_ERROR_RPC_SERVERCALL_RETRYLATER) ||
    str_contains error_str (ascii_lower COM_ERROR_RPC_CALL_REJECTED)

instance {ε α : Type} [DecidableEq ε] [DecidableEq α] : DecidableEq (Except ε α) :=
  fun x y =>
    match x, y with
    | .ok a, .ok b => decidable_of_iff (a = b) ⟨fun h => h ▸ rfl, fun h => by injection h⟩
    | .ok _, .error _ => .isFalse (fun h => Except.noConfusion h)
    | .error _, .ok _ => .isFalse (fun h => Except.noConfusion h)
    | .error e, .error f => decidable_of_iff (e = f) ⟨fun h => h ▸ rfl, fun h => by injection h⟩

/-- Result of a `safe_com_call`: the returned value or raised error, the
number of attempts made, and the sequence of `time.sleep` delays taken. -/
structure ComCallResult (α : Type) where
  result : Except String α
  attempts : Nat
  sleeps : List Int
deriving DecidableEq, Repr

/-- The retry loop of `WordProcessor.safe_com_call`; `call i` is the outcome
of the `i`-th invocation of `func`.  `fuel` is `max_attempts - 1 - attempt`,
the number of retries still permitted (the loop bound). -/
def safe_com_call_go (call : Nat → Except String α) (delay : Int) (max_attempts : Nat) :
    Nat → Nat → ComCallResult α
  | 0, attempt =>
    match call attempt with
    | .ok v => ⟨.ok v, attempt + 1, []⟩
    | .error e => ⟨.error e, attempt + 1, []⟩
  | fuel + 1, attempt =>
    match call attempt with
    | .ok v => ⟨.ok v, attempt + 1, []⟩
    | .error e =>
      if transient_com_indicator e = true ∧ attempt < max_attempts - 1 then
        let rest := safe_com_call_go call delay max_attempts fuel (attempt + 1)
        ⟨rest.result, rest.attempts, delay :: rest.sleeps⟩
      else ⟨.error e, attempt + 1, []⟩

/-- `WordProcessor.safe_com_call`: at least one attempt
(`max_attempts = max(1, retries)`); an attempt failing with a transient
("call rejected") error sleeps `delay` and retries while attempts remain; any
other error — or exhaustion — propagates the error. -/
def safe_com_call (call : Nat → Except String α) (retries : Nat) (delay : Int) :
    ComCallResult α :=
  let max_attempts := max 1 retries
  safe_com_call_go call delay max_attempts (max_attempts - 1) 0

/-! ## `src/word_processor.py` — `_check_printer_status` -/

/-- Modelled from the spec: `PRINTER_STATUS_OFFLINE` is imported by
`word_processor.py` but missing from `src/constants.py`; its value is the
win32 `PRINTER_STATUS_OFFLINE` bit (`0x80`). -/
def PRINTER_STATUS_OFFLINE : Nat := 128

/-- Modelled from the spec: `PRINTER_STATUS_ERROR` is imported by
`word_processor.py` but missing from `src/constants.py`; its value is the
win32 `PRINTER_STATUS_ERROR` bit (`0x2`). -/
def PRINTER_STATUS_ERROR : Nat := 2

/-- Outcome of the bounded-worker printer query in `_check_printer_status`:
the status word `GetPrinter` returned in time, a `FuturesTimeoutError` from
the hard timeout, or any other exception. -/
inductive PrinterQueryOutcome where
  | ok (status : Nat)
  | timeout
  | failed (msg : String)
deriving DecidableEq, Repr

/-- `WordProcessor._check_printer_status` as a function of the query outcome:
returns `(is_ready, error_message)`. -/
def check_printer_status (printer_name : String) (query : PrinterQueryOutcome) :
    Bool × Option String :=
  match query with
  | .ok status =>
    if status &&& PRINTER_STATUS_OFFLINE ≠ 0 then
      (false, some ("Printer " ++ printer_name ++ " is offline."))
    else if status &&& PRINTER_STATUS_ERROR ≠ 0 then
      (false, some ("Printer " ++ printer_name ++ " reported an error state."))
    else (true, none)
  | .timeout => (true, none)
  | .failed _ => (true, none)

/-! ## `src/word_processor.py` — the date rewriter

`_run_find_replace` drives Word's `Find.Execute` with `MatchCase = False`,
`Wrap = wdFindContinue` and `Replace = wdReplaceAll`: a left-to-right scan
replacing every (case-insensitive) leftmost match and resuming *after* the
replacement, never re-scanning inserted text.  We embed the two concrete
wildcard patterns of `replace_dates` (day-name/month-name alternations,
`[0-9]{1,2}` greedy with the mandatory `", "` separator, `[0-9]{4}`) and the
literal placeholder as character-list matchers returning the length of the
match at the head of the input, and the replace-all as a fuelled scan. -/

/-- Case-insensitive character equality (`MatchCase = False`, ASCII). -/
def ci_eq_char (a b : Char) : Bool :=
  ascii_lower_char a == ascii_lower_char b

/-- `p` is a case-insensitive prefix of `s`. -/
def ci_starts_with (p s : List Char) : Bool :=
  match p, s with
  | [], _ => true
  | _ :: _, [] => false
  | a :: ps, b :: ss => ci_eq_char a b && ci_starts_with ps ss

/-- First word of the alternation matching at the head of `s`
(the regex-alternation `(w₁|w₂|…)`). -/
def first_word_ci (ws : List (List Char)) (s : List Char) : Option (List Char) :=
  match ws with
  | [] => none
  | w :: rest => if ci_starts_with w s then some w else first_word_ci rest s

/-- The ten characters of the `[0-9]` wildcard class. -/
def DIGIT_CHARS : List Char := ['0', '1', '2', '3', '4', '5', '6', '7', '8', '9']

/-- The `[0-9]` wildcard class. -/
def is_digit_char (c : Char) : Bool :=
  DIGIT_CHARS.contains c

/-- The day-name alternation of `replace_dates` (Sunday first, as written
in the source pattern). -/
def PATTERN_DAY_WORDS : List (List Char) :=
  ["Sunday", "Monday", "Tuesday", "Wednesday", "Thursday", "Friday", "Saturday"].map
    String.data

/-- The month-name alternation of `replace_dates`. -/
def PATTERN_MONTH_WORDS : List (List Char) :=
  ["January", "February", "March", "April", "May", "June", "July", "August",
   "September", "October", "November", "December"].map String.data

/-- The `", "` separator used throughout the patterns. -/
def SEP_COMMA : List Char := [',', ' ']

/-- `[0-9]{1,2}` (greedy, with backtracking) followed by `", "`: consumes
either two digits plus the separator or one digit plus the separator, and
fails otherwise.  Returns the total number of characters consumed. -/
def match_day_num (s : List Char) : Option Nat :=
  match s with
  | a :: b :: rest =>
    if is_digit_char a then
      if is_digit_char b then
        if ci_starts_with SEP_COMMA rest then some 4 else none
      else
        if ci_starts_with SEP_COMMA (b :: rest) then some 3 else none
    else none
  | _ => none

/-- `[0-9]{4}`: exactly four digits (the following character is free). -/
def match_four_digits (s : List Char) : Option Nat :=
  match s with
  | a :: b :: c :: d :: _ =>
    if is_digit_char a && is_digit_char b && is_digit_char c && is_digit_char d then
      some 4
    else none
  | _ => none

/-- Style 1 pattern of `replace_dates`:
`(day)(", ")(month)(" ")[0-9]{1,2}(", ")[0-9]{4}`
("Sunday, January 04, 2026").  Returns the length of the match at the head
of `s`, if any. -/
def match_style1 (s : List Char) : Option Nat :=
  match first_word_ci PATTERN_DAY_WORDS s with
  | none => none
  | some dw =>
    let s1 := s.drop dw.length
    if ci_starts_with SEP_COMMA s1 then
      match first_word_ci PATTERN_MONTH_WORDS (s1.drop 2) with
      | none => none
      | some mw =>
        let s2 := (s1.drop 2).drop mw.length
        if ci_starts_with [' '] s2 then
          match match_day_num (s2.drop 1) with
          | none => none
          | some k =>
            match match_four_digits ((s2.drop 1).drop k) with
            | none => none
            | some _ => some (dw.length + 2 + mw.length + 1 + k + 4)
        else none
    else none

/-- Style 2 pattern of `replace_dates`:
`(day)(" ")(month)(" ")[0-9]{1,2}(", ")[0-9]{4}`
("Saturday January 03, 2026", no comma after the day name). -/
def match_style2 (s : List Char) : Option Nat :=
  match first_word_ci PATTERN_DAY_WORDS s with
  | none => none
  | some dw =>
    let s1 := s.drop dw.length
    if ci_starts_with [' '] s1 then
      match first_word_ci PATTERN_MONTH_WORDS (s1.drop 1) with
      | none => none
      | some mw =>
        let s2 := (s1.drop 1).drop mw.length
        if ci_starts_with [' '] s2 then
          match match_day_num (s2.drop 1) with
          | none => none
          | some k =>
            match match_four_digits ((s2.drop 1).drop k) with
            | none => none
            | some _ => some (dw.length + 1 + mw.length + 1 + k + 4)
        else none
    else none

/-- Modelled from the spec: `constants.DATE_PLACEHOLDER` is imported by
`word_processor.py` but missing from `src/constants.py`; the `replace_dates`
docstring gives the placeholder form (`e.g. \x7b\x7bDATE\x7d\x7d`). -/
def DATE_PLACEHOLDER : String := "\x7b\x7bDATE\x7d\x7d"

/-- The primary, non-wildcard pass: a case-insensitive literal match of the
date placeholder. -/
def match_placeholder (s : List Char) : Option Nat :=
  if ci_starts_with DATE_PLACEHOLDER.data s then some DATE_PLACEHOLDER.data.length
  else none

/-- The replace-all scan of `Find.Execute(…, Replace := wdReplaceAll)`:
at each position try the matcher; on a match emit the replacement and resume
after the matched text (never re-scanning the replacement), otherwise copy
one character.  `fuel` bounds the recursion; `s.length` is always enough
because every match consumes at least one character. -/
def find_replace_all (m : List Char → Option Nat) (repl : List Char) :
    Nat → List Char → List Char
  | _, [] => []
  | 0, s => s
  | fuel + 1, c :: rest =>
    match m (c :: rest) with
    | some n => repl ++ find_replace_all m repl fuel ((c :: rest).drop (max n 1))
    | none => c :: find_replace_all m repl fuel rest

/-- `WordProcessor._run_find_replace` on one story range's text. -/
def run_find_replace (m : List Char → Option Nat) (repl : List Char)
    (s : List Char) : List Char :=
  find_replace_all m repl s.length s

/-- One story range: its `StoryType` (1 = `wdMainTextStory`, the body;
7 … 12 = the header/footer stories of `src/constants.py`) and its text. -/
structure Story where
  story_type : Nat
  text : List Char
deriving DecidableEq, Repr

/-- A document as `_execute_replace` traverses it: `doc.StoryRanges` yields
the first range of each story, and each is followed through its
`NextStoryRange` chain — so, a list of chains of stories. -/
abbrev Document := List (List Story)

/-- The story ranges `_execute_replace` runs `Find.Execute` on: every story
range of every chain, whatever its story type. -/
def execute_replace_targets (doc : Document) : List Nat :=
  doc.flatMap (fun chain => chain.map (fun st => st.story_type))

/-- `WordProcessor._execute_replace`: run the find/replace on every story
range of every chain. -/
def execute_replace (doc : Document) (m : List Char → Option Nat)
    (repl : List Char) : Document :=
  doc.map (fun chain => chain.map (fun st => ⟨st.story_type, run_find_replace m repl st.text⟩))

/-- `current_date.strftime("%A")` under the English locale
(day name of the weekday). -/
def format_day_name (d : Date) : List Char :=
  (EN_DAY_NAMES.getD (weekday d) "").data

/-- `current_date.strftime("%B")` under the English locale. -/
def format_month_name (d : Date) : List Char :=
  (EN_MONTH_NAMES.getD d.month "").data

/-- The decimal digit characters. -/
def digit_char : Nat → Char
  | 0 => '0' | 1 => '1' | 2 => '2' | 3 => '3' | 4 => '4'
  | 5 => '5' | 6 => '6' | 7 => '7' | 8 => '8' | 9 => '9'
  | _ => '*'

/-- `str(int(current_date.strftime("%d")))`: the day of month in decimal with
no leading zero (days of month are below 100). -/
def format_day_num (d : Date) : List Char :=
  if d.day < 10 then [digit_char d.day]
  else [digit_char (d.day / 10 % 10), digit_char (d.day % 10)]

/-- `current_date.strftime("%Y")`: the year in decimal — written out for the
four-digit years `datetime.date` carries in this application
(`1000 ≤ year ≤ 9999`). -/
def format_year (d : Date) : List Char :=
  [digit_char (d.year / 1000 % 10), digit_char (d.year / 100 % 10),
   digit_char (d.year / 10 % 10), digit_char (d.year % 10)]

/-- The Style 1 replacement text (also the placeholder replacement):
`f"{new_day}, {new_month} {new_day_num}, {new_year}"`. -/
def style1_replacement (d : Date) : List Char :=
  format_day_name d ++ SEP_COMMA ++ format_month_name d ++ [' '] ++
    format_day_num d ++ SEP_COMMA ++ format_year d

/-- The Style 2 replacement text:
`f"{new_day} {new_month} {new_day_num}, {new_year}"`. -/
def style2_replacement (d : Date) : List Char :=
  format_day_name d ++ [' '] ++ format_month_name d ++ [' '] ++
    format_day_num d ++ SEP_COMMA ++ format_year d

/-- `WordProcessor.replace_dates`: the placeholder pass, then the two
wildcard passes, each over every story range, in a fixed sequence. -/
def replace_dates (doc : Document) (current_date : Date) : Document :=
  let doc0 := execute_replace doc match_placeholder (style1_replacement current_date)
  let doc1 := execute_replace doc0 match_style1 (style1_replacement current_date)
  execute_replace doc1 match_style2 (style2_replacement current_date)

/-- Identifier for the three find/replace calls `replace_dates` issues. -/
inductive DatePattern where
  | placeholder
  | day_name_comma
  | day_name_no_comma
deriving DecidableEq, Repr

/-- The sequence of `(pattern, is_wildcard)` substitution calls
`replace_dates` issues against the document: the placeholder call, then —
unconditionally, whatever matched — each wildcard pattern in source order
(`for find_text, replace_text in patterns: self._execute_replace(...)`). -/
def replace_dates_calls (_doc : Document) (_current_date : Date) :
    List (DatePattern × Bool) :=
  [(.placeholder, false), (.day_name_comma, true), (.day_name_no_comma, true)]

/-- A body-only document whose text matches the Style 1 day-name pattern. -/
def c4_doc : Document := [[⟨1, "Sunday, January 04, 2026".data⟩]]

/-- A document with a body story (type 1) and a primary-header story
(type 7), both containing a Style 1 date. -/
def c1_doc : Document :=
  [[⟨1, "Sunday, January 04, 2026".data⟩], [⟨7, "Sunday, January 04, 2026".data⟩]]

/-! ## Idempotence of the date rewriter (C8): groundwork

The second `replace_dates` pass is a no-op because, in the output of the
first pass, every match any of the three patterns still finds is exactly the
replacement text that pattern would insert.  `MatchesExact` captures that
property; the lemmas below build up the character-level reasoning. -/

/-- Every match `X` finds at any position of `t` is exactly the replacement
text `xr` — so a replace-all of `X` by `xr` leaves `t` unchanged. -/
def MatchesExact (X : List Char → Option Nat) (xr t : List Char) : Prop :=
  ∀ u n, u <:+ t → X u = some n → n = xr.length ∧ u.take n = xr

/-- A case-insensitive mismatch between `p` and `w` within their common
length. -/
def ci_mismatch_within (p w : List Char) : Bool :=
  match p, w with
  | [], _ => false
  | _ :: _, [] => false
  | a :: ps, b :: ws => !ci_eq_char a b || ci_mismatch_within ps ws

/-- The shape of the pieces the date replacement strings are assembled from:
a pattern day word, a pattern month word, a one-or-two-digit day number and a
four-digit year. -/
def date_text_parts (dw mw nm y4 : List Char) : Prop :=
  dw ∈ PATTERN_DAY_WORDS ∧ mw ∈ PATTERN_MONTH_WORDS ∧
  (∀ c ∈ nm, is_digit_char c = true) ∧ 1 ≤ nm.length ∧ nm.length ≤ 2 ∧
  (∀ c ∈ y4, is_digit_char c = true) ∧ y4.length = 4

/-- The generic shape of the replacement texts: a day word, a separator
(`", "` for Style 1, `" "` for Style 2), a month word, a space, the day
number, `", "` and the year. -/
def repl_shape (sep1 dw mw nm y4 : List Char) : List Char :=
  dw ++ (sep1 ++ (mw ++ (' ' :: (nm ++ (',' :: ' ' :: y4)))))

/-! ### Structure of a replace-all scan -/

/-- Derivation tree of one `find_replace_all` scan: each input position was
either tested-and-copied (the matcher returned `none` there) or matched and
replaced by `repl`, resuming after the matched text. -/
inductive ScanChunks (m : List Char → Option Nat) (repl : List Char) :
    List Char → List Char → Prop
  | nil : ScanChunks m repl [] []
  | copy (c : Char) (s out : List Char) :
      m (c :: s) = none → ScanChunks m repl s out →
      ScanChunks m repl (c :: s) (c :: out)
  | replaced (s : List Char) (n : Nat) (out : List Char) :
      m s = some n → s ≠ [] → ScanChunks m repl (s.drop (max n 1)) out →
      ScanChunks m repl s (repl ++ out)

/-- No match of `Y` anywhere in `t` (at any suffix position). -/
def NoMatch (Y : List Char → Option Nat) (t : List Char) : Prop :=
  ∀ u n, u <:+ t → Y u = some n → False

/-- The weekday index is always in `0 … 6`. -/
theorem weekday_lt_seven (d : Date) : weekday d < 7 := by
  unfold weekday
  have h7 : (0:Int) < 7 := by norm_num
  have := Int.emod_lt_of_pos (to_ordinal d + 6) h7
  have h0 := Int.emod_nonneg (to_ordinal d + 6) (by norm_num : (7:Int) ≠ 0)
  omega

/-- The English day name is one of the seven `calendar.day_name` entries. -/
theorem get_english_day_name_mem (d : Date) : get_english_day_name d ∈ EN_DAY_NAMES := by
  unfold get_english_day_name
  have h := weekday_lt_seven d
  generalize weekday d = w at h ⊢
  interval_cases w <;> decide

/-- C5: for every date `d`, the day-shift logical template name is the special
name `"THIRD Thursday"` exactly when `d` is a Thursday whose day-of-month lies
in `15 … 21` (the third Thursday of its month), and is the English day name of
`d` otherwise; the night-shift logical template name is always
`"<day-name> Night"` and is never the special name. -/
theorem C5_third_thursday_template_names (d : Date) :
    get_shift_template_name d "day" =
      .ok (if weekday d = THURSDAY ∧ 15 ≤ d.day ∧ d.day ≤ 21 then "THIRD Thursday"
           else get_english_day_name d) ∧
    get_english_day_name d ≠ "THIRD Thursday" ∧
    get_shift_template_name d "night" = .ok (get_english_day_name d ++ " Night") ∧
    get_shift_template_name d "night" ≠ .ok "THIRD Thursday" := by
  have hmem := get_english_day_name_mem d
  have hne : get_english_day_name d ≠ "THIRD Thursday" := by
    intro hEq
    exact absurd (hEq ▸ hmem) (by decide)
  have hnight : get_english_day_name d ++ " Night" ≠ "THIRD Thursday" := by
    simp only [EN_DAY_NAMES, List.mem_cons, List.not_mem_nil, or_false] at hmem
    rcases hmem with h | h | h | h | h | h | h <;> rw [h] <;> decide
  refine ⟨?_, hne, ?_, ?_⟩
  · unfold get_shift_template_name is_third_thursday
    by_cases hw : weekday d = THURSDAY
    · by_cases hd : 15 ≤ d.day ∧ d.day ≤ 21
      · simp [hw, hd]
      · simp [hw, hd]
    · simp [hw, fun h : weekday d = THURSDAY ∧ _ => hw h.1]
  · unfold get_shift_template_name
    simp
  · unfold get_shift_template_name
    simp [hnight]

/-! ### Calendar arithmetic lemmas -/

theorem days_before_month_succ (y m : Nat) (h1 : 1 ≤ m) :
    days_before_month y (m + 1) = days_before_month y m + days_in_month y m := by
  unfold days_before_month
  have hm : m + 1 - 1 = (m - 1) + 1 := by omega
  have hm' : m - 1 + 1 = m := by omega
  rw [hm, List.range_succ, List.map_append, List.sum_append]
  simp only [List.map_cons, List.map_nil, List.sum_cons, List.sum_nil, add_zero]
  rw [hm']

theorem days_before_month_twelve (y : Nat) :
    days_before_month y 12 + days_in_month y 12 =
      365 + (if is_leap_year y then 1 else 0) := by
  cases h : is_leap_year y <;>
    simp [days_before_month, days_in_month, h, List.range_succ]

theorem days_before_year_succ (y : Nat) (hy : 1 ≤ y) :
    days_before_year (y + 1) =
      days_before_year y + 365 + (if is_leap_year y then 1 else 0) := by
  obtain ⟨a, rfl⟩ : ∃ a, y = a + 1 := ⟨y - 1, by omega⟩
  unfold days_before_year
  have e4 : (a + 1 + 1 - 1) / 4 = (a + 1 - 1) / 4 + if 4 ∣ a + 1 then 1 else 0 := by
    simp only [Nat.add_sub_cancel]; exact Nat.succ_div a 4
  have e100 : (a + 1 + 1 - 1) / 100 = (a + 1 - 1) / 100 + if 100 ∣ a + 1 then 1 else 0 := by
    simp only [Nat.add_sub_cancel]; exact Nat.succ_div a 100
  have e400 : (a + 1 + 1 - 1) / 400 = (a + 1 - 1) / 400 + if 400 ∣ a + 1 then 1 else 0 := by
    simp only [Nat.add_sub_cancel]; exact Nat.succ_div a 400
  rw [e4, e100, e400]
  by_cases h4 : 4 ∣ a + 1
  · by_cases h100 : 100 ∣ a + 1
    · by_cases h400 : 400 ∣ a + 1
      · have hl : is_leap_year (a + 1) = true := by
          have b4 : (a + 1) % 4 = 0 := by omega
          have b100 : (a + 1) % 100 = 0 := by omega
          have b400 : (a + 1) % 400 = 0 := by omega
          simp [is_leap_year, b4, b100, b400]
        simp only [h4, h100, h400, hl, if_true]
        push_cast
        ring
      · have hl : is_leap_year (a + 1) = false := by
          have b100 : (a + 1) % 100 = 0 := by omega
          have b400 : (a + 1) % 400 ≠ 0 := by omega
          simp [is_leap_year, b100, b400]
        simp only [h4, h100, h400, hl, if_true, if_false]
        push_cast
        ring
    · have h400 : ¬ 400 ∣ a + 1 := fun h => h100 (dvd_trans ⟨4, by norm_num⟩ h)
      have hl : is_leap_year (a + 1) = true := by
        have b4 : (a + 1) % 4 = 0 := by omega
        have b100 : (a + 1) % 100 ≠ 0 := by omega
        simp [is_leap_year, b4, b100]
      simp only [h4, h100, h400, hl, if_true, if_false]
      push_cast
      ring
  · have h100 : ¬ 100 ∣ a + 1 := fun h => h4 (dvd_trans ⟨25, by norm_num⟩ h)
    have h400 : ¬ 400 ∣ a + 1 := fun h => h4 (dvd_trans ⟨100, by norm_num⟩ h)
    have hl : is_leap_year (a + 1) = false := by
      have b4 : (a + 1) % 4 ≠ 0 := by omega
      simp [is_leap_year, b4]
    simp only [h4, h100, h400, hl, if_false]
    push_cast
    ring

theorem days_in_month_pos (y m : Nat) (h1 : 1 ≤ m) (h2 : m ≤ 12) :
    1 ≤ days_in_month y m := by
  interval_cases m <;> simp [days_in_month] <;> split <;> omega

theorem days_before_month_add_le (y m : Nat) (h1 : 1 ≤ m) (h2 : m ≤ 12) :
    days_before_month y m + days_in_month y m ≤
      365 + (if is_leap_year y then 1 else 0) := by
  cases h : is_leap_year y <;> interval_cases m <;>
    simp [days_before_month, days_in_month, h, List.range_succ]

theorem days_before_year_mono {a b : Nat} (ha : 1 ≤ a) (hab : a ≤ b) :
    days_before_year a ≤ days_before_year b := by
  induction b, hab using Nat.le_induction with
  | base => exact le_refl _
  | succ b hb ih =>
      have h1b : 1 ≤ b := le_trans ha hb
      calc days_before_year a ≤ days_before_year b := ih
        _ ≤ days_before_year b + 365 + (if is_leap_year b then 1 else 0) := by
            split <;> omega
        _ = days_before_year (b + 1) := (days_before_year_succ b h1b).symm

/-- `date.max.toordinal() == 3652059` in CPython. -/
theorem to_ordinal_le_max (d : Date) (hv : is_valid_date d) :
    to_ordinal d ≤ 3652059 := by
  obtain ⟨h1, h2, h3, h4, h5, h6⟩ := hv
  have hmon := days_before_month_add_le d.year d.month h3 h4
  have hstep := days_before_year_succ d.year h1
  have hdby : days_before_year (d.year + 1) ≤ days_before_year 10000 :=
    days_before_year_mono (by omega) (by omega)
  have hval : days_before_year 10000 = 3652059 := by decide
  unfold to_ordinal
  have : (days_before_month d.year d.month : Int) + d.day ≤
      365 + (if is_leap_year d.year then 1 else 0) := by
    have : (days_before_month d.year d.month : Int) + d.day ≤
        (days_before_month d.year d.month : Int) + days_in_month d.year d.month := by
      omega
    refine le_trans this ?_
    exact_mod_cast hmon
  cases hl : is_leap_year d.year <;> rw [hl] at hstep this <;>
    simp at hstep this <;> omega

theorem to_ordinal_succ_date (d : Date) (hv : is_valid_date d) :
    to_ordinal (succ_date d) = to_ordinal d + 1 := by
  obtain ⟨h1, h2, h3, h4, h5, h6⟩ := hv
  unfold succ_date to_ordinal
  by_cases hd : d.day < days_in_month d.year d.month
  · simp only [hd, if_true]
    push_cast
    ring
  · have hday : d.day = days_in_month d.year d.month := by omega
    by_cases hm : d.month < 12
    · simp only [hd, hm, if_false, if_true]
      rw [days_before_month_succ d.year d.month h3]
      push_cast
      omega
    · have hm12 : d.month = 12 := by omega
      simp only [hd, hm, if_false]
      rw [days_before_year_succ d.year h1]
      have h12 := days_before_month_twelve d.year
      have h31 : days_in_month d.year 12 = 31 := rfl
      rw [hm12] at h6 hday ⊢
      rw [h31] at h12 hday
      have hdbm : days_before_month (d.year + 1) 1 = 0 := rfl
      rw [hdbm]
      by_cases hl : is_leap_year d.year = true
      · rw [if_pos hl] at h12 ⊢
        omega
      · rw [if_neg hl] at h12 ⊢
        omega

theorem succ_date_valid (d : Date) (hv : is_valid_date d)
    (hne : ¬(d.year = 9999 ∧ d.month = 12 ∧ d.day = 31)) :
    is_valid_date (succ_date d) := by
  obtain ⟨h1, h2, h3, h4, h5, h6⟩ := hv
  unfold succ_date
  by_cases hd : d.day < days_in_month d.year d.month
  · simp only [hd, if_true]
    refine ⟨h1, h2, h3, h4, ?_, ?_⟩
    · show 1 ≤ d.day + 1
      omega
    · show d.day + 1 ≤ days_in_month d.year d.month
      omega
  · have hday : d.day = days_in_month d.year d.month := by omega
    by_cases hm : d.month < 12
    · simp only [hd, hm, if_false, if_true]
      refine ⟨h1, h2, ?_, ?_, ?_, ?_⟩
      · show 1 ≤ d.month + 1
        omega
      · show d.month + 1 ≤ 12
        omega
      · show (1 : Nat) ≤ 1
        exact le_refl 1
      · show 1 ≤ days_in_month d.year (d.month + 1)
        exact days_in_month_pos d.year (d.month + 1) (by omega) (by omega)
    · have hm12 : d.month = 12 := by omega
      simp only [hd, hm, if_false]
      have h31 : days_in_month d.year 12 = 31 := rfl
      have hy : d.year ≠ 9999 := by
        intro hy9999
        exact hne ⟨hy9999, hm12, by rw [hday, hm12, h31]⟩
      refine ⟨?_, ?_, ?_, ?_, ?_, ?_⟩
      · show 1 ≤ d.year + 1
        omega
      · show d.year + 1 ≤ 9999
        omega
      · show (1 : Nat) ≤ 1
        exact le_refl 1
      · show (1 : Nat) ≤ 12
        omega
      · show (1 : Nat) ≤ 1
        exact le_refl 1
      · show 1 ≤ days_in_month (d.year + 1) 1
        exact days_in_month_pos (d.year + 1) 1 (by omega) (by omega)

theorem add_days_spec (n : Nat) : ∀ (d : Date), is_valid_date d →
    to_ordinal d + n ≤ 3652059 →
    is_valid_date (add_days n d) ∧ to_ordinal (add_days n d) = to_ordinal d + n := by
  induction n with
  | zero => intro d hv _; exact ⟨hv, by simp [add_days]⟩
  | succ n ih =>
      intro d hv hbound
      have hne : ¬(d.year = 9999 ∧ d.month = 12 ∧ d.day = 31) := by
        rintro ⟨hy, hm, hd⟩
        have : d = ⟨9999, 12, 31⟩ := by cases d; simp_all
        rw [this] at hbound
        have : to_ordinal ⟨9999, 12, 31⟩ = 3652059 := by decide
        omega
      have hv' := succ_date_valid d hv hne
      have hord := to_ordinal_succ_date d hv
      have hb' : to_ordinal (succ_date d) + n ≤ 3652059 := by
        rw [hord]; push_cast at hbound ⊢; omega
      obtain ⟨hva, horda⟩ := ih (succ_date d) hv' hb'
      refine ⟨hva, ?_⟩
      show to_ordinal (add_days n (succ_date d)) = _
      rw [horda, hord]
      push_cast
      ring

theorem process_batch_go_no_cancel (print_res : Nat → Bool × Option String)
    (dates : List Date) : ∀ r j,
    (process_batch_go print_res (fun _ => false) dates r j).jobs =
      dates.flatMap jobs_for_date ∧
    (process_batch_go print_res (fun _ => false) dates r j).outcome = .completed := by
  induction dates with
  | nil => intro r j; simp [process_batch_go]
  | cons dt rest ih =>
      intro r j
      obtain ⟨ih1, ih2⟩ := ih (r + 3) (j + 2)
      simp [process_batch_go, jobs_for_date, ih1, ih2]

theorem flatMap_jobs_length (ds : List Date) :
    (ds.flatMap jobs_for_date).length = 2 * ds.length := by
  induction ds with
  | nil => simp
  | cons dt rest ih => simp [jobs_for_date, ih]; omega

/-- C6: for a valid inclusive date range, `get_date_range` yields the
`N = (end - start).days + 1` dates in chronological order (the `i`-th date has
ordinal `start + i`), an uninterrupted run attempts exactly one day-shift job
followed by one night-shift job per date — `2N` jobs in total — and
`_compute_batch_size` reports `(N, 2N)`. -/
theorem C6_uninterrupted_batch_runs_two_N_jobs
    (start_date end_date : Date) (print_res : Nat → Bool × Option String)
    (hvs : is_valid_date start_date) (hve : is_valid_date end_date)
    (hord : to_ordinal start_date ≤ to_ordinal end_date)
    (hmax : to_ordinal end_date - to_ordinal start_date + 1 ≤ MAX_DAYS_RANGE) :
    ∃ ds : List Date,
      get_date_range start_date end_date = .ok ds ∧
      (ds.length : Int) = to_ordinal end_date - to_ordinal start_date + 1 ∧
      compute_batch_size start_date end_date = ((ds.length : Int), (ds.length : Int) * 2) ∧
      (∀ i, i < ds.length →
        to_ordinal (ds.getD i ⟨1, 1, 1⟩) = to_ordinal start_date + i) ∧
      (process_batch ds (fun _ => false) print_res).jobs = ds.flatMap jobs_for_date ∧
      (process_batch ds (fun _ => false) print_res).jobs.length = 2 * ds.length ∧
      (process_batch ds (fun _ => false) print_res).outcome = .completed := by
  have hvalidate : validate_date_range start_date end_date = (true, none) := by
    unfold validate_date_range
    rw [if_neg (by omega)]
    rw [if_neg (by omega)]
  set delta := (to_ordinal end_date - to_ordinal start_date).toNat with hdelta
  have hdelta' : (delta : Int) = to_ordinal end_date - to_ordinal start_date := by
    rw [hdelta]; omega
  refine ⟨(List.range (delta + 1)).map (fun i => add_days i start_date), ?_, ?_, ?_, ?_, ?_, ?_, ?_⟩
  · unfold get_date_range
    rw [hvalidate]
    simp
  · simp; omega
  · unfold compute_batch_size
    simp only [List.length_map, List.length_range]
    have htd : to_ordinal end_date - to_ordinal start_date + 1 = ((delta + 1 : Nat) : Int) := by
      push_cast
      omega
    rw [htd]
  · intro i hi
    simp only [List.length_map, List.length_range] at hi
    have hget : ((List.range (delta + 1)).map (fun i => add_days i start_date)).getD i ⟨1, 1, 1⟩
        = add_days i start_date := by
      rw [List.getD_eq_getElem?_getD, List.getElem?_map]
      simp [List.getElem?_range hi]
    rw [hget]
    have hbound : to_ordinal start_date + (i : Int) ≤ 3652059 := by
      have hle := to_ordinal_le_max end_date hve
      omega
    exact (add_days_spec i start_date hvs hbound).2
  · show (process_batch_go print_res (fun _ => false) _ 0 0).jobs = _
    exact (process_batch_go_no_cancel print_res _ 0 0).1
  · show (process_batch_go print_res (fun _ => false) _ 0 0).jobs.length = _
    rw [(process_batch_go_no_cancel print_res _ 0 0).1]
    exact flatMap_jobs_length _
  · show (process_batch_go print_res (fun _ => false) _ 0 0).outcome = _
    exact (process_batch_go_no_cancel print_res _ 0 0).2

/-- Witness for C6 at the concrete range 2026-01-14 … 2026-01-15. -/
theorem C6_witness :
    ∃ ds : List Date,
      get_date_range ⟨2026, 1, 14⟩ ⟨2026, 1, 15⟩ = .ok ds ∧
      (ds.length : Int) = to_ordinal ⟨2026, 1, 15⟩ - to_ordinal ⟨2026, 1, 14⟩ + 1 ∧
      compute_batch_size ⟨2026, 1, 14⟩ ⟨2026, 1, 15⟩ = ((ds.length : Int), (ds.length : Int) * 2) ∧
      (∀ i, i < ds.length →
        to_ordinal (ds.getD i ⟨1, 1, 1⟩) = to_ordinal ⟨2026, 1, 14⟩ + i) ∧
      (process_batch ds (fun _ => false) (fun _ => (true, none))).jobs = ds.flatMap jobs_for_date ∧
      (process_batch ds (fun _ => false) (fun _ => (true, none))).jobs.length = 2 * ds.length ∧
      (process_batch ds (fun _ => false) (fun _ => (true, none))).outcome = .completed :=
  C6_uninterrupted_batch_runs_two_N_jobs ⟨2026, 1, 14⟩ ⟨2026, 1, 15⟩ (fun _ => (true, none))
    (by decide) (by decide) (by decide) (by decide)

theorem process_batch_go_cancel_mid_date (print_res : Nat → Bool × Option String)
    (cancel : Nat → Bool) :
    ∀ (k : Nat) (dates : List Date) (r j : Nat), k < dates.length →
    (∀ i, i < 3 * k + 2 → cancel (r + i) = false) →
    cancel (r + (3 * k + 2)) = true →
    (process_batch_go print_res cancel dates r j).outcome = .cancelled ∧
    (process_batch_go print_res cancel dates r j).jobs =
      (dates.take k).flatMap jobs_for_date ++
        [⟨dates.getD k ⟨1, 1, 1⟩, "day", day_template (dates.getD k ⟨1, 1, 1⟩)⟩] := by
  intro k
  induction k with
  | zero =>
      intro dates r j hk h1 h2
      match dates, hk with
      | dt :: rest, _ =>
        have hc0 : cancel r = false := by have := h1 0 (by omega); simpa using this
        have hc1 : cancel (r + 1) = false := h1 1 (by omega)
        have hc2 : cancel (r + 2) = true := by simpa using h2
        simp [process_batch_go, hc0, hc1, hc2]
  | succ k ih =>
      intro dates r j hk h1 h2
      match dates, hk with
      | dt :: rest, hk =>
        have hc0 : cancel r = false := by have := h1 0 (by omega); simpa using this
        have hc1 : cancel (r + 1) = false := h1 1 (by omega)
        have hc2 : cancel (r + 2) = false := h1 2 (by omega)
        have hrest : k < rest.length := by simpa using hk
        have h1' : ∀ i, i < 3 * k + 2 → cancel (r + 3 + i) = false := by
          intro i hi
          have : r + 3 + i = r + (i + 3) := by omega
          rw [this]
          exact h1 (i + 3) (by omega)
        have h2' : cancel (r + 3 + (3 * k + 2)) = true := by
          have : r + 3 + (3 * k + 2) = r + (3 * (k + 1) + 2) := by omega
          rw [this]
          exact h2
        obtain ⟨iho, ihj⟩ := ih rest (r + 3) (j + 2) hrest h1' h2'
        refine ⟨?_, ?_⟩
        · simp [process_batch_go, hc0, hc1, hc2, iho]
        · simp [process_batch_go, hc0, hc1, hc2, ihj, jobs_for_date]

/-- C7: if the cancellation flag is first observed set at the check between
the day job of the `k`-th date and its night job (all earlier checks saw it
clear), the run stops with the "Cancelled" status — distinct from the
completed/failure path — having attempted exactly the `2k` jobs of the earlier
dates plus the day job of the `k`-th date: its night job and every job of
every later date are never started, so the partial-completion count is
exactly `2k + 1` ("day shift done, night shift skipped"). -/
theorem C7_cancel_between_day_and_night
    (dates : List Date) (cancel : Nat → Bool) (print_res : Nat → Bool × Option String)
    (k : Nat) (hk : k < dates.length)
    (h1 : ∀ i, i < 3 * k + 2 → cancel i = false)
    (h2 : cancel (3 * k + 2) = true) :
    (process_batch dates cancel print_res).outcome = .cancelled ∧
    (process_batch dates cancel print_res).jobs =
      (dates.take k).flatMap jobs_for_date ++
        [⟨dates.getD k ⟨1, 1, 1⟩, "day", day_template (dates.getD k ⟨1, 1, 1⟩)⟩] ∧
    (process_batch dates cancel print_res).jobs.length = 2 * k + 1 := by
  have h1' : ∀ i, i < 3 * k + 2 → cancel (0 + i) = false := by
    intro i hi; simpa using h1 i hi
  have h2' : cancel (0 + (3 * k + 2)) = true := by simpa using h2
  obtain ⟨ho, hj⟩ :=
    process_batch_go_cancel_mid_date print_res cancel k dates 0 0 hk h1' h2'
  refine ⟨ho, hj, ?_⟩
  show (process_batch_go print_res cancel dates 0 0).jobs.length = 2 * k + 1
  rw [hj, List.length_append, flatMap_jobs_length, List.length_take]
  simp
  omega

/-- Witness for C7: three dates, flag first seen set at check index 5
(between the day and night jobs of the second date). -/
theorem C7_witness :
    (process_batch [⟨2026, 1, 14⟩, ⟨2026, 1, 15⟩, ⟨2026, 1, 16⟩]
        (fun i => decide (5 ≤ i)) (fun _ => (true, none))).outcome = .cancelled ∧
    (process_batch [⟨2026, 1, 14⟩, ⟨2026, 1, 15⟩, ⟨2026, 1, 16⟩]
        (fun i => decide (5 ≤ i)) (fun _ => (true, none))).jobs =
      ([⟨2026, 1, 14⟩] : List Date).flatMap jobs_for_date ++
        [⟨⟨2026, 1, 15⟩, "day", day_template ⟨2026, 1, 15⟩⟩] ∧
    (process_batch [⟨2026, 1, 14⟩, ⟨2026, 1, 15⟩, ⟨2026, 1, 16⟩]
        (fun i => decide (5 ≤ i)) (fun _ => (true, none))).jobs.length = 2 * 1 + 1 := by
  have h := C7_cancel_between_day_and_night
    [⟨2026, 1, 14⟩, ⟨2026, 1, 15⟩, ⟨2026, 1, 16⟩]
    (fun i => decide (5 ≤ i)) (fun _ => (true, none)) 1
    (by decide) (by decide) (by decide)
  simpa using h

theorem ascii_lower_append (a b : String) :
    ascii_lower (a ++ b) = ascii_lower a ++ ascii_lower b := by
  simp [ascii_lower, String.data_append, String.ext_iff]

/-- C10: if the exactly-named matching `.docx` file is reached by the lookup
loop (no earlier entry is an exact `.docx` match) but it has size zero or its
size cannot be read, template resolution returns `none` ("not found") rather
than that file's path. -/
theorem C10_empty_template_rejected
    (pre post : List FileEntry) (f : FileEntry) (template_name : String)
    (hskip : ∀ g ∈ pre,
      str_ends_with (ascii_lower g.name) DOCX_EXTENSION = true →
      (ascii_lower g.name == ascii_lower (template_name ++ DOCX_EXTENSION)) = false)
    (hmatch : ascii_lower f.name = ascii_lower (template_name ++ DOCX_EXTENSION))
    (hbad : f.size = some 0 ∨ f.size = none) :
    find_template_file ⟨true, some (pre ++ f :: post)⟩ template_name = none := by
  unfold find_template_file
  simp only [Bool.true_eq_false, if_false]
  have hdocx : str_ends_with (ascii_lower f.name) DOCX_EXTENSION = true := by
    rw [hmatch, ascii_lower_append]
    have : ascii_lower DOCX_EXTENSION = DOCX_EXTENSION := rfl
    rw [this]
    unfold str_ends_with
    rw [List.isSuffixOf_iff_suffix]
    exact List.suffix_append _ _
  induction pre with
  | nil =>
      simp only [List.nil_append]
      unfold find_template_loop
      rw [hdocx]
      simp only [Bool.true_eq_false, if_false]
      rw [if_pos (by simp [hmatch])]
      rcases hbad with h | h <;> rw [h]
  | cons g rest ih =>
      simp only [List.cons_append]
      unfold find_template_loop
      by_cases hg : str_ends_with (ascii_lower g.name) DOCX_EXTENSION = true
      · rw [hg]
        simp only [Bool.true_eq_false, if_false]
        rw [if_neg]
        · exact ih (fun g' hg' => hskip g' (List.mem_cons_of_mem _ hg'))
        · have := hskip g (List.mem_cons_self g rest) hg
          simp [this]
      · rw [Bool.not_eq_true] at hg
        rw [hg]
        simp only [if_true]
        exact ih (fun g' hg' => hskip g' (List.mem_cons_of_mem _ hg'))

/-- Witness for C10: a folder whose only entry is an empty `Monday.docx`. -/
theorem C10_witness :
    find_template_file ⟨true, some [⟨"Monday.docx", some 0⟩]⟩ "Monday" = none :=
  C10_empty_template_rejected [] [] ⟨"Monday.docx", some 0⟩ "Monday"
    (by intro g hg; simp at hg) rfl (Or.inl rfl)

/-- C2 (code evaluation at the failing input): with two equally-specific
non-exact candidates `Thursday AM.docx` / `Thursday PM.docx` for the logical
name `Thursday`, the resolver in `src/word_processor.py` returns `none`
("not found") — it performs exact-name matching only and raises no
ambiguous-template error (`TemplateLookupError` does not exist in the module,
although `src/main.py` imports and handles it). -/
theorem C2_two_nonexact_candidates_return_not_found :
    find_template_file
      ⟨true, some [⟨"Thursday AM.docx", some 10⟩, ⟨"Thursday PM.docx", some 10⟩]⟩
      "Thursday" = none := by decide

/-- C3 counterexample: an error whose message carries an `offline` indicator
(claimed transient by the spec's keyword list) is not retried at all —
`safe_com_call` raises it after one attempt with no sleeps, despite
`COM_RETRIES = 5`. -/
theorem C3_counterexample_offline_error_not_retried :
    safe_com_call (fun _ => (.error "Printer is offline" : Except String Unit))
        COM_RETRIES COM_RETRY_DELAY =
      ⟨.error "Printer is offline", 1, []⟩ := by decide

theorem safe_com_call_go_spec (call : Nat → Except String α) (delay : Int)
    (max_attempts : Nat) :
    ∀ (fuel attempt : Nat), max_attempts ≤ fuel + attempt + 1 →
    (attempt < (safe_com_call_go call delay max_attempts fuel attempt).attempts ∧
      (safe_com_call_go call delay max_attempts fuel attempt).attempts ≤ attempt + fuel + 1) ∧
    (∀ i, attempt ≤ i → i + 1 < (safe_com_call_go call delay max_attempts fuel attempt).attempts →
      ∃ e, call i = .error e ∧ transient_com_indicator e = true) ∧
    (∀ v, (safe_com_call_go call delay max_attempts fuel attempt).result = .ok v →
      call ((safe_com_call_go call delay max_attempts fuel attempt).attempts - 1) = .ok v) ∧
    (∀ e, (safe_com_call_go call delay max_attempts fuel attempt).result = .error e →
      call ((safe_com_call_go call delay max_attempts fuel attempt).attempts - 1) = .error e ∧
      (transient_com_indicator e = false ∨
        ¬ (safe_com_call_go call delay max_attempts fuel attempt).attempts - 1 < max_attempts - 1)) ∧
    (safe_com_call_go call delay max_attempts fuel attempt).sleeps =
      List.replicate ((safe_com_call_go call delay max_attempts fuel attempt).attempts - 1 - attempt)
        delay := by
  intro fuel
  induction fuel with
  | zero =>
      intro attempt hinv
      cases hc : call attempt with
      | ok v =>
          have hr : safe_com_call_go call delay max_attempts 0 attempt = ⟨.ok v, attempt + 1, []⟩ := by
            simp [safe_com_call_go, hc]
          rw [hr]
          refine ⟨⟨?_, ?_⟩, ?_, ?_, ?_, ?_⟩
          · show attempt < attempt + 1
            omega
          · show attempt + 1 ≤ _
            omega
          · intro i hi hilt
            dsimp only at hilt
            omega
          · intro v' hv'
            dsimp only at hv' ⊢
            injection hv' with h
            rw [Nat.add_sub_cancel, hc, h]
          · intro e' he'
            exact absurd he' (fun h => Except.noConfusion h)
          · simp
      | error e =>
          have hr : safe_com_call_go call delay max_attempts 0 attempt = ⟨.error e, attempt + 1, []⟩ := by
            simp [safe_com_call_go, hc]
          rw [hr]
          refine ⟨⟨?_, ?_⟩, ?_, ?_, ?_, ?_⟩
          · show attempt < attempt + 1
            omega
          · show attempt + 1 ≤ _
            omega
          · intro i hi hilt
            dsimp only at hilt
            omega
          · intro v' hv'
            exact absurd hv' (fun h => Except.noConfusion h)
          · intro e' he'
            dsimp only at he' ⊢
            injection he' with h
            subst h
            refine ⟨by rw [Nat.add_sub_cancel, hc], Or.inr ?_⟩
            omega
          · simp
  | succ fuel ih =>
      intro attempt hinv
      cases hc : call attempt with
      | ok v =>
          have hr : safe_com_call_go call delay max_attempts (fuel + 1) attempt
              = ⟨.ok v, attempt + 1, []⟩ := by
            simp [safe_com_call_go, hc]
          rw [hr]
          refine ⟨⟨?_, ?_⟩, ?_, ?_, ?_, ?_⟩
          · show attempt < attempt + 1
            omega
          · show attempt + 1 ≤ _
            omega
          · intro i hi hilt
            dsimp only at hilt
            omega
          · intro v' hv'
            dsimp only at hv' ⊢
            injection hv' with h
            rw [Nat.add_sub_cancel, hc, h]
          · intro e' he'
            exact absurd he' (fun h => Except.noConfusion h)
          · simp
      | error e =>
          by_cases hcond : transient_com_indicator e = true ∧ attempt < max_attempts - 1
          · have hinv' : max_attempts ≤ fuel + (attempt + 1) + 1 := by omega
            obtain ⟨⟨iha1, iha2⟩, ihtrans, ihok, iherr, ihsleep⟩ := ih (attempt + 1) hinv'
            have hr : safe_com_call_go call delay max_attempts (fuel + 1) attempt =
                ⟨(safe_com_call_go call delay max_attempts fuel (attempt + 1)).result,
                 (safe_com_call_go call delay max_attempts fuel (attempt + 1)).attempts,
                 delay :: (safe_com_call_go call delay max_attempts fuel (attempt + 1)).sleeps⟩ := by
              simp [safe_com_call_go, hc, hcond]
            rw [hr]
            refine ⟨⟨by dsimp only; omega, by dsimp only; omega⟩, ?_, ?_, ?_, ?_⟩
            · intro i hi hilt
              dsimp only at hilt
              by_cases hieq : i = attempt
              · subst hieq
                exact ⟨e, hc, hcond.1⟩
              · exact ihtrans i (by omega) hilt
            · intro v' hv'
              dsimp only at hv' ⊢
              exact ihok v' hv'
            · intro e' he'
              dsimp only at he' ⊢
              exact iherr e' he'
            · dsimp only
              rw [ihsleep]
              have h1 : (safe_com_call_go call delay max_attempts fuel (attempt + 1)).attempts - 1 - attempt
                  = ((safe_com_call_go call delay max_attempts fuel (attempt + 1)).attempts - 1
                      - (attempt + 1)) + 1 := by
                omega
              rw [h1, List.replicate_succ]
          · have hr : safe_com_call_go call delay max_attempts (fuel + 1) attempt
                = ⟨.error e, attempt + 1, []⟩ := by
              simp only [safe_com_call_go, hc]
              rw [if_neg hcond]
            rw [hr]
            refine ⟨⟨?_, ?_⟩, ?_, ?_, ?_, ?_⟩
            · show attempt < attempt + 1
              omega
            · show attempt + 1 ≤ _
              omega
            · intro i hi hilt
              dsimp only at hilt
              omega
            · intro v' hv'
              exact absurd hv' (fun h => Except.noConfusion h)
            · intro e' he'
              dsimp only at he' ⊢
              injection he' with h
              subst h
              refine ⟨by rw [Nat.add_sub_cancel, hc], ?_⟩
              by_cases ht : transient_com_indicator e = true
              · right
                have : ¬ attempt < max_attempts - 1 := fun hlt => hcond ⟨ht, hlt⟩
                omega
              · left
                simpa using ht
            · simp

/-- C3 amended: `safe_com_call` makes between 1 and `max(1, retries)` attempts;
every attempt before the last failed with a *call-rejected* transient error
(`"rejected"` / `0x80010001` / `0x8001010A` indicators — not the spec's
offline/busy/timeout keyword list); the returned value or raised error is the
outcome of the last attempt; an error is only raised because it is
non-transient or because attempts are exhausted; and each retry sleeps the
same fixed `delay` (no exponential backoff). -/
theorem C3_amended_rejected_only_fixed_delay_retry
    (call : Nat → Except String α) (retries : Nat) (delay : Int) :
    (1 ≤ (safe_com_call call retries delay).attempts ∧
      (safe_com_call call retries delay).attempts ≤ max 1 retries) ∧
    (∀ i, i + 1 < (safe_com_call call retries delay).attempts →
      ∃ e, call i = .error e ∧ transient_com_indicator e = true) ∧
    (∀ v, (safe_com_call call retries delay).result = .ok v →
      call ((safe_com_call call retries delay).attempts - 1) = .ok v) ∧
    (∀ e, (safe_com_call call retries delay).result = .error e →
      call ((safe_com_call call retries delay).attempts - 1) = .error e ∧
      (transient_com_indicator e = false ∨
        (safe_com_call call retries delay).attempts = max 1 retries)) ∧
    (safe_com_call call retries delay).sleeps
      = List.replicate ((safe_com_call call retries delay).attempts - 1) delay := by
  set r := safe_com_call call retries delay with hredef
  have hmax : 1 ≤ max 1 retries := le_max_left _ _
  have hre : r = safe_com_call_go call delay (max 1 retries) (max 1 retries - 1) 0 :=
    hredef.trans rfl
  obtain ⟨⟨h1, h2⟩, htrans, hok, herr, hsleep⟩ :=
    safe_com_call_go_spec call delay (max 1 retries) (max 1 retries - 1) 0 (by omega)
  rw [hre]
  set M := max 1 retries with hM
  refine ⟨⟨by omega, by omega⟩, ?_, hok, ?_, by simpa using hsleep⟩
  · intro i hi
    exact htrans i (by omega) hi
  · intro e he
    obtain ⟨hcall, hcase⟩ := herr e he
    refine ⟨hcall, ?_⟩
    rcases hcase with h | h
    · exact Or.inl h
    · right
      omega

/-- Witness for C3 at a concrete always-rejected call: all 5 attempts are
used and 4 fixed-delay sleeps are taken. -/
theorem C3_witness :
    (safe_com_call (fun _ => (.error "Call was rejected by callee" : Except String Unit))
        COM_RETRIES COM_RETRY_DELAY).sleeps =
      List.replicate
        ((safe_com_call (fun _ => (.error "Call was rejected by callee" : Except String Unit))
            COM_RETRIES COM_RETRY_DELAY).attempts - 1) COM_RETRY_DELAY ∧
    (safe_com_call (fun _ => (.error "Call was rejected by callee" : Except String Unit))
        COM_RETRIES COM_RETRY_DELAY).attempts = 5 :=
  ⟨(C3_amended_rejected_only_fixed_delay_retry
      (fun _ => (.error "Call was rejected by callee" : Except String Unit))
      COM_RETRIES COM_RETRY_DELAY).2.2.2.2, by decide⟩

/-- C9: when the bounded printer-status query times out (or fails), the check
reports ready with no error message instead of failing the job; it reports
not-ready exactly when the query returned a status word with the offline or
error bit set. -/
theorem C9_printer_check_timeout_is_ready (printer_name : String)
    (q : PrinterQueryOutcome) :
    check_printer_status printer_name .timeout = (true, none) ∧
    (∀ m, check_printer_status printer_name (.failed m) = (true, none)) ∧
    ((check_printer_status printer_name q).1 = false ↔
      ∃ status, q = .ok status ∧
        (status &&& PRINTER_STATUS_OFFLINE ≠ 0 ∨ status &&& PRINTER_STATUS_ERROR ≠ 0)) := by
  refine ⟨rfl, fun m => rfl, ?_⟩
  cases q with
  | ok status =>
      by_cases h1 : status &&& PRINTER_STATUS_OFFLINE ≠ 0
      · simp [check_printer_status, h1]
      · by_cases h2 : status &&& PRINTER_STATUS_ERROR ≠ 0
        · simp [check_printer_status, h1, h2]
        · simp [check_printer_status, h1, h2]
  | timeout => simp [check_printer_status]
  | failed m => simp [check_printer_status]

/-- Witness for C9 at a concrete offline status word. -/
theorem C9_witness :
    (check_printer_status "Printer1" (.ok 128)).1 = false :=
  (C9_printer_check_timeout_is_ready "Printer1" (.ok 128)).2.2.mpr
    ⟨128, rfl, Or.inl (by decide)⟩

/-- C4 counterexample: in a document where the first (most specific) pattern
of the day-name group matches, `replace_dates` still issues the later,
broader no-comma pattern against the document — the group is not stopped by
the first match. -/
theorem C4_counterexample_later_pattern_still_applied :
    match_style1 "Sunday, January 04, 2026".data = some 24 ∧
    (DatePattern.day_name_no_comma, true) ∈ replace_dates_calls c4_doc ⟨2026, 1, 15⟩ := by
  constructor
  · decide
  · decide

/-- C4 amended: the patterns of the day-name group are not mutually
exclusive — `replace_dates` issues all three substitution calls
unconditionally and in a fixed order for every document, an earlier match
stopping nothing; on a document matched by the first pattern the later
pattern simply finds nothing to re-substitute (no duplicated day name). -/
theorem C4_amended_all_patterns_always_applied (doc : Document) (d : Date) :
    replace_dates_calls doc d =
      [(.placeholder, false), (.day_name_comma, true), (.day_name_no_comma, true)] ∧
    replace_dates doc d =
      execute_replace
        (execute_replace (execute_replace doc match_placeholder (style1_replacement d))
          match_style1 (style1_replacement d))
        match_style2 (style2_replacement d) ∧
    replace_dates c4_doc ⟨2026, 1, 15⟩ =
      [[⟨1, "Thursday, January 15, 2026".data⟩]] := by
  refine ⟨rfl, rfl, by decide⟩

/-- C1 (code evaluation at the failing input): `_execute_replace` has no
headers/footers-only scope — its substitution calls target every story range
including the body (`wdMainTextStory`, type 1), and `replace_dates` rewrites
the body text of `c1_doc` rather than leaving it untouched.  (The
`headers_footers_only` flag `main._print_shift` passes is not even accepted
by `print_document`.) -/
theorem C1_substitution_targets_body_story :
    1 ∈ execute_replace_targets c1_doc ∧
    replace_dates c1_doc ⟨2026, 1, 15⟩ =
      [[⟨1, "Thursday, January 15, 2026".data⟩],
       [⟨7, "Thursday, January 15, 2026".data⟩]] := by
  constructor
  · decide
  · decide

theorem ci_eq_char_refl (c : Char) : ci_eq_char c c = true := by
  simp [ci_eq_char]

theorem ci_starts_with_self_append (p t : List Char) :
    ci_starts_with p (p ++ t) = true := by
  induction p with
  | nil => rfl
  | cons c cs ih => simp [ci_starts_with, ci_eq_char_refl, ih]

/-- `ci_starts_with p` only reads the first `p.length` characters. -/
theorem ci_starts_with_congr (p : List Char) :
    ∀ s s', s.take p.length = s'.take p.length →
    ci_starts_with p s = ci_starts_with p s' := by
  induction p with
  | nil => intro s s' _; rfl
  | cons c cs ih =>
      intro s s' h
      cases s with
      | nil =>
          cases s' with
          | nil => rfl
          | cons b bs => simp [List.take] at h
      | cons a as =>
          cases s' with
          | nil => simp [List.take] at h
          | cons b bs =>
              simp only [List.length_cons, List.take_succ_cons, List.cons.injEq] at h
              simp [ci_starts_with, h.1, ih as bs h.2]

theorem ci_starts_with_drop (q : Nat) :
    ∀ (p s : List Char), ci_starts_with p s = true →
    ci_starts_with (p.drop q) (s.drop q) = true := by
  induction q with
  | zero => intro p s h; simpa using h
  | succ q ih =>
      intro p s h
      cases p with
      | nil => simp [ci_starts_with]
      | cons a ps =>
          cases s with
          | nil => simp [ci_starts_with] at h
          | cons b bs =>
              simp only [ci_starts_with, Bool.and_eq_true] at h
              simpa using ih ps bs h.2

/-- A mismatch within `w` blocks `p` from matching `w ++ t` for every `t`. -/
theorem ci_mismatch_blocks (p : List Char) :
    ∀ (w : List Char), ci_mismatch_within p w = true →
    ∀ t, ci_starts_with p (w ++ t) = false := by
  induction p with
  | nil => intro w h t; simp [ci_mismatch_within] at h
  | cons a ps ih =>
      intro w h t
      cases w with
      | nil => simp [ci_mismatch_within] at h
      | cons b ws =>
          simp only [ci_mismatch_within, Bool.or_eq_true, Bool.not_eq_true'] at h
          rcases h with h | h
          · simp [ci_starts_with, h]
          · simp [ci_starts_with, ih ws h t]

theorem first_word_ci_congr (ws : List (List Char)) (s s' : List Char)
    (h : ∀ w ∈ ws, s.take w.length = s'.take w.length) :
    first_word_ci ws s = first_word_ci ws s' := by
  induction ws with
  | nil => rfl
  | cons w rest ih =>
      simp only [first_word_ci]
      rw [ci_starts_with_congr w s s' (h w (by simp))]
      rw [ih (fun w' hw' => h w' (by simp [hw']))]

theorem first_word_ci_some (ws : List (List Char)) (s w : List Char)
    (h : first_word_ci ws s = some w) : w ∈ ws ∧ ci_starts_with w s = true := by
  induction ws with
  | nil => simp [first_word_ci] at h
  | cons w0 rest ih =>
      simp only [first_word_ci] at h
      split at h
      · injection h with h
        subst h
        exact ⟨by simp, by assumption⟩
      · obtain ⟨hmem, hsw⟩ := ih h
        exact ⟨by simp [hmem], hsw⟩

theorem first_word_ci_none (ws : List (List Char)) (s : List Char)
    (h : ∀ w ∈ ws, ci_starts_with w s = false) : first_word_ci ws s = none := by
  induction ws with
  | nil => rfl
  | cons w0 rest ih =>
      simp only [first_word_ci]
      rw [h w0 (by simp)]
      simp only [Bool.false_eq_true, if_false]
      exact ih (fun w hw => h w (by simp [hw]))

theorem first_word_ci_append (pre post : List (List Char)) (w t : List Char)
    (hpre : ∀ w' ∈ pre, ci_starts_with w' (w ++ t) = false) :
    first_word_ci (pre ++ w :: post) (w ++ t) = some w := by
  induction pre with
  | nil => simp [first_word_ci, ci_starts_with_self_append]
  | cons w0 rest ih =>
      simp only [List.cons_append, first_word_ci]
      rw [hpre w0 (by simp)]
      simp only [Bool.false_eq_true, if_false]
      exact ih (fun w' hw' => hpre w' (by simp [hw']))

theorem is_digit_char_mem (c : Char) (h : is_digit_char c = true) :
    c ∈ DIGIT_CHARS := by
  simpa [is_digit_char] using h

theorem digit_char_mem (k : Nat) (h : k < 10) : digit_char k ∈ DIGIT_CHARS := by
  interval_cases k <;> decide

theorem digit_char_is_digit (k : Nat) (h : k < 10) :
    is_digit_char (digit_char k) = true := by
  interval_cases k <;> decide

theorem format_day_name_mem (d : Date) :
    (format_day_name d : List Char) ∈ PATTERN_DAY_WORDS := by
  unfold format_day_name
  have h := weekday_lt_seven d
  generalize weekday d = w at h ⊢
  interval_cases w <;> decide

theorem format_month_name_mem (d : Date) (h1 : 1 ≤ d.month) (h2 : d.month ≤ 12) :
    (format_month_name d : List Char) ∈ PATTERN_MONTH_WORDS := by
  unfold format_month_name
  generalize hm : d.month = m at h1 h2
  interval_cases m <;> decide

theorem format_day_num_spec (d : Date) (h : d.day < 100) :
    (∀ c ∈ format_day_num d, is_digit_char c = true) ∧
    1 ≤ (format_day_num d).length ∧ (format_day_num d).length ≤ 2 := by
  unfold format_day_num
  by_cases h10 : d.day < 10
  · rw [if_pos h10]
    refine ⟨?_, by simp, by simp⟩
    intro c hc
    simp only [List.mem_singleton] at hc
    subst hc
    exact digit_char_is_digit _ h10
  · rw [if_neg h10]
    refine ⟨?_, by simp, by simp⟩
    intro c hc
    simp only [List.mem_cons, List.not_mem_nil, or_false] at hc
    rcases hc with hc | hc <;> subst hc <;>
      exact digit_char_is_digit _ (Nat.mod_lt _ (by norm_num))

theorem format_year_spec (d : Date) :
    (∀ c ∈ format_year d, is_digit_char c = true) ∧ (format_year d).length = 4 := by
  unfold format_year
  refine ⟨?_, rfl⟩
  intro c hc
  simp only [List.mem_cons, List.not_mem_nil, or_false] at hc
  rcases hc with hc | hc | hc | hc <;> subst hc <;>
    exact digit_char_is_digit _ (Nat.mod_lt _ (by norm_num))

theorem style1_replacement_parts (d : Date) (hm1 : 1 ≤ d.month) (hm2 : d.month ≤ 12)
    (hday : d.day < 100) :
    date_text_parts (format_day_name d) (format_month_name d)
      (format_day_num d) (format_year d) := by
  obtain ⟨hn1, hn2, hn3⟩ := format_day_num_spec d hday
  obtain ⟨hy1, hy2⟩ := format_year_spec d
  exact ⟨format_day_name_mem d, format_month_name_mem d hm1 hm2, hn1, hn2, hn3, hy1, hy2⟩

/-! ### Take/drop bookkeeping -/

theorem drop_add (l : List Char) (a b : Nat) : (l.drop a).drop b = l.drop (a + b) := by
  rw [List.drop_drop]

theorem take_eq_of_take_eq {s s' : List Char} {n m : Nat}
    (h : s.take n = s'.take n) (hm : m ≤ n) : s.take m = s'.take m := by
  have h1 : (s.take n).take m = (s'.take n).take m := by rw [h]
  simpa [List.take_take, Nat.min_eq_left hm] using h1

theorem drop_take_eq_of_take_eq {s s' : List Char} {n a b : Nat}
    (h : s.take n = s'.take n) (hab : a + b ≤ n) :
    (s.drop a).take b = (s'.drop a).take b := by
  have h1 : (s.take n).drop a = (s'.take n).drop a := by rw [h]
  rw [List.drop_take, List.drop_take] at h1
  have hb : b ≤ n - a := by omega
  have h2 := take_eq_of_take_eq h1 hb
  simpa [List.take_take, Nat.min_eq_left hb] using h2

/-! ### The component matchers: characterization and congruence -/

theorem match_day_num_cases (s : List Char) (k : Nat)
    (h : match_day_num s = some k) : k = 3 ∨ k = 4 := by
  unfold match_day_num at h
  split at h
  · split at h
    · split at h
      · split at h
        · injection h with h; omega
        · exact absurd h (by simp)
      · split at h
        · injection h with h; omega
        · exact absurd h (by simp)
    · exact absurd h (by simp)
  · exact absurd h (by simp)

/-- `ci_starts_with w` does not look past the first `w.length` characters. -/
theorem ci_starts_with_append_indep (w : List Char) :
    ∀ (p u v : List Char), w.length ≤ p.length →
    ci_starts_with w (p ++ u) = ci_starts_with w (p ++ v) := by
  induction w with
  | nil => intro p u v _; rfl
  | cons a ws ih =>
      intro p u v h
      cases p with
      | nil => simp at h
      | cons b ps =>
          simp only [List.length_cons, Nat.add_le_add_iff_right] at h
          simp [ci_starts_with, ih ps u v h]

theorem first_word_ci_append_indep (ws : List (List Char)) (p u v : List Char)
    (h : ∀ w ∈ ws, w.length ≤ p.length) :
    first_word_ci ws (p ++ u) = first_word_ci ws (p ++ v) := by
  induction ws with
  | nil => rfl
  | cons w rest ih =>
      simp only [first_word_ci]
      rw [ci_starts_with_append_indep w p u v (h w (by simp))]
      rw [ih (fun w' hw' => h w' (by simp [hw']))]

theorem match_day_num_append_indep (p u v : List Char) (h : 4 ≤ p.length) :
    match_day_num (p ++ u) = match_day_num (p ++ v) := by
  match p, h with
  | a :: b :: rest, hh =>
      have hrest : 2 ≤ rest.length := by
        simp only [List.length_cons] at hh
        omega
      have e1 : ∀ x : List Char, match_day_num (a :: b :: x) =
          if is_digit_char a = true then
            if is_digit_char b = true then
              if ci_starts_with SEP_COMMA x = true then some 4 else none
            else
              if ci_starts_with SEP_COMMA (b :: x) = true then some 3 else none
          else none := fun x => rfl
      show match_day_num (a :: b :: (rest ++ u)) = match_day_num (a :: b :: (rest ++ v))
      rw [e1, e1]
      rw [ci_starts_with_append_indep SEP_COMMA rest u v (by simp [SEP_COMMA]; omega)]
      have h2 : ci_starts_with SEP_COMMA ((b :: rest) ++ u)
          = ci_starts_with SEP_COMMA ((b :: rest) ++ v) :=
        ci_starts_with_append_indep SEP_COMMA (b :: rest) u v (by simp [SEP_COMMA]; omega)
      simp only [List.cons_append] at h2
      rw [h2]

theorem match_four_digits_append_indep (p u v : List Char) (h : 4 ≤ p.length) :
    match_four_digits (p ++ u) = match_four_digits (p ++ v) := by
  match p, h with
  | a :: b :: c :: d :: rest, _ => rfl

theorem match_four_digits_some (s : List Char) (k : Nat)
    (h : match_four_digits s = some k) : k = 4 := by
  unfold match_four_digits at h
  split at h
  · split at h
    · injection h with h; omega
    · exact absurd h (by simp)
  · exact absurd h (by simp)

theorem match_four_digits_of_digits (y4 t : List Char)
    (hd : ∀ c ∈ y4, is_digit_char c = true) (hl : y4.length = 4) :
    match_four_digits (y4 ++ t) = some 4 := by
  match y4, hl with
  | [a, b, c, d], _ =>
      have ha := hd a (by simp)
      have hb := hd b (by simp)
      have hc := hd c (by simp)
      have hdd := hd d (by simp)
      unfold match_four_digits
      simp [ha, hb, hc, hdd]

theorem match_day_num_of_parts (nm y4 t : List Char)
    (hd : ∀ c ∈ nm, is_digit_char c = true) (h1 : 1 ≤ nm.length) (h2 : nm.length ≤ 2) :
    match_day_num (nm ++ SEP_COMMA ++ y4 ++ t) = some (nm.length + 2) := by
  match nm, h1, h2 with
  | [a], _, _ =>
      have ha := hd a (by simp)
      unfold match_day_num
      simp only [List.cons_append, List.nil_append, SEP_COMMA]
      rw [if_pos ha]
      have hcomma : is_digit_char ',' = false := by decide
      rw [hcomma]
      simp [ci_starts_with, ci_eq_char]
  | [a, b], _, _ =>
      have ha := hd a (by simp)
      have hb := hd b (by simp)
      unfold match_day_num
      simp only [List.cons_append, List.nil_append, SEP_COMMA]
      rw [if_pos ha, if_pos hb]
      rw [if_pos ?side]
      case side =>
        have : ([',', ' '] : List Char) ++ (y4 ++ t) = ',' :: ' ' :: (y4 ++ t) := rfl
        simp [ci_starts_with, ci_eq_char]
      rfl

/-! ### The style matchers: decomposition and construction -/

theorem match_style1_some (s : List Char) (n : Nat) (h : match_style1 s = some n) :
    ∃ dw mw k,
      first_word_ci PATTERN_DAY_WORDS s = some dw ∧
      ci_starts_with SEP_COMMA (s.drop dw.length) = true ∧
      first_word_ci PATTERN_MONTH_WORDS (s.drop (dw.length + 2)) = some mw ∧
      ci_starts_with [' '] (s.drop (dw.length + 2 + mw.length)) = true ∧
      match_day_num (s.drop (dw.length + 2 + mw.length + 1)) = some k ∧
      match_four_digits (s.drop (dw.length + 2 + mw.length + 1 + k)) = some 4 ∧
      n = dw.length + 2 + mw.length + 1 + k + 4 := by
  unfold match_style1 at h
  cases hfw : first_word_ci PATTERN_DAY_WORDS s with
  | none => rw [hfw] at h; exact absurd h (by simp)
  | some dw =>
      rw [hfw] at h
      simp only [drop_add] at h
      split at h
      case isFalse => exact absurd h (by simp)
      case isTrue hsep =>
        cases hmw : first_word_ci PATTERN_MONTH_WORDS (s.drop (dw.length + 2)) with
        | none => rw [hmw] at h; exact absurd h (by simp)
        | some mw =>
            rw [hmw] at h
            simp only [drop_add] at h
            split at h
            case isFalse => exact absurd h (by simp)
            case isTrue hsp =>
              cases hdn : match_day_num (s.drop (dw.length + 2 + mw.length + 1)) with
              | none => rw [hdn] at h; exact absurd h (by simp)
              | some k =>
                  rw [hdn] at h
                  simp only [drop_add] at h
                  cases h4 : match_four_digits (s.drop (dw.length + 2 + mw.length + 1 + k)) with
                  | none => rw [h4] at h; exact absurd h (by simp)
                  | some k4 =>
                      rw [h4] at h
                      injection h with h
                      have hk4 := match_four_digits_some _ _ h4
                      subst hk4
                      exact ⟨dw, mw, k, rfl, hsep, hmw, hsp, hdn, h4, h.symm⟩

theorem match_style1_build (s : List Char) (dw mw : List Char) (k : Nat)
    (hfw : first_word_ci PATTERN_DAY_WORDS s = some dw)
    (hsep : ci_starts_with SEP_COMMA (s.drop dw.length) = true)
    (hmw : first_word_ci PATTERN_MONTH_WORDS (s.drop (dw.length + 2)) = some mw)
    (hsp : ci_starts_with [' '] (s.drop (dw.length + 2 + mw.length)) = true)
    (hdn : match_day_num (s.drop (dw.length + 2 + mw.length + 1)) = some k)
    (h4 : match_four_digits (s.drop (dw.length + 2 + mw.length + 1 + k)) = some 4) :
    match_style1 s = some (dw.length + 2 + mw.length + 1 + k + 4) := by
  unfold match_style1
  rw [hfw]
  simp only [drop_add]
  rw [hsep]
  simp only [if_true]
  rw [hmw]
  simp only [drop_add]
  rw [hsp]
  simp only [if_true]
  rw [hdn]
  simp only [drop_add]
  rw [h4]

theorem match_style2_some (s : List Char) (n : Nat) (h : match_style2 s = some n) :
    ∃ dw mw k,
      first_word_ci PATTERN_DAY_WORDS s = some dw ∧
      ci_starts_with [' '] (s.drop dw.length) = true ∧
      first_word_ci PATTERN_MONTH_WORDS (s.drop (dw.length + 1)) = some mw ∧
      ci_starts_with [' '] (s.drop (dw.length + 1 + mw.length)) = true ∧
      match_day_num (s.drop (dw.length + 1 + mw.length + 1)) = some k ∧
      match_four_digits (s.drop (dw.length + 1 + mw.length + 1 + k)) = some 4 ∧
      n = dw.length + 1 + mw.length + 1 + k + 4 := by
  unfold match_style2 at h
  cases hfw : first_word_ci PATTERN_DAY_WORDS s with
  | none => rw [hfw] at h; exact absurd h (by simp)
  | some dw =>
      rw [hfw] at h
      simp only [drop_add] at h
      split at h
      case isFalse => exact absurd h (by simp)
      case isTrue hsep =>
        cases hmw : first_word_ci PATTERN_MONTH_WORDS (s.drop (dw.length + 1)) with
        | none => rw [hmw] at h; exact absurd h (by simp)
        | some mw =>
            rw [hmw] at h
            simp only [drop_add] at h
            split at h
            case isFalse => exact absurd h (by simp)
            case isTrue hsp =>
              cases hdn : match_day_num (s.drop (dw.length + 1 + mw.length + 1)) with
              | none => rw [hdn] at h; exact absurd h (by simp)
              | some k =>
                  rw [hdn] at h
                  simp only [drop_add] at h
                  cases h4 : match_four_digits (s.drop (dw.length + 1 + mw.length + 1 + k)) with
                  | none => rw [h4] at h; exact absurd h (by simp)
                  | some k4 =>
                      rw [h4] at h
                      injection h with h
                      have hk4 := match_four_digits_some _ _ h4
                      subst hk4
                      exact ⟨dw, mw, k, rfl, hsep, hmw, hsp, hdn, h4, h.symm⟩

theorem match_style2_build (s : List Char) (dw mw : List Char) (k : Nat)
    (hfw : first_word_ci PATTERN_DAY_WORDS s = some dw)
    (hsep : ci_starts_with [' '] (s.drop dw.length) = true)
    (hmw : first_word_ci PATTERN_MONTH_WORDS (s.drop (dw.length + 1)) = some mw)
    (hsp : ci_starts_with [' '] (s.drop (dw.length + 1 + mw.length)) = true)
    (hdn : match_day_num (s.drop (dw.length + 1 + mw.length + 1)) = some k)
    (h4 : match_four_digits (s.drop (dw.length + 1 + mw.length + 1 + k)) = some 4) :
    match_style2 s = some (dw.length + 1 + mw.length + 1 + k + 4) := by
  unfold match_style2
  rw [hfw]
  simp only [drop_add]
  rw [hsep]
  simp only [if_true]
  rw [hmw]
  simp only [drop_add]
  rw [hsp]
  simp only [if_true]
  rw [hdn]
  simp only [drop_add]
  rw [h4]

/-! ### Lengths, positivity, read-boundedness -/

theorem day_words_len : ∀ w ∈ PATTERN_DAY_WORDS, 6 ≤ w.length ∧ w.length ≤ 9 := by
  decide

theorem month_words_len : ∀ w ∈ PATTERN_MONTH_WORDS, 3 ≤ w.length ∧ w.length ≤ 9 := by
  decide

theorem ci_starts_with_le_length (p : List Char) :
    ∀ s, ci_starts_with p s = true → p.length ≤ s.length := by
  induction p with
  | nil => intro s _; simp
  | cons a ps ih =>
      intro s h
      cases s with
      | nil => simp [ci_starts_with] at h
      | cons b bs =>
          simp only [ci_starts_with, Bool.and_eq_true] at h
          have := ih bs h.2
          simp only [List.length_cons]
          omega

theorem match_four_digits_min_len (u : List Char) (j : Nat)
    (h : match_four_digits u = some j) : 4 ≤ u.length := by
  unfold match_four_digits at h
  split at h
  · simp only [List.length_cons]
    omega
  · exact absurd h (by simp)

theorem match_day_num_min_len (u : List Char) (k : Nat)
    (h : match_day_num u = some k) : k ≤ u.length := by
  unfold match_day_num at h
  split at h
  case h_2 => exact absurd h (by simp)
  case h_1 a b rest =>
    split at h
    · split at h
      · split at h
        case isTrue hsw =>
          injection h with h
          have := ci_starts_with_le_length _ _ hsw
          simp only [SEP_COMMA, List.length_cons] at this ⊢
          omega
        · exact absurd h (by simp)
      · split at h
        case isTrue hsw =>
          injection h with h
          have := ci_starts_with_le_length _ _ hsw
          simp only [SEP_COMMA, List.length_cons] at this ⊢
          omega
        · exact absurd h (by simp)
    · exact absurd h (by simp)

theorem match_style1_bounds (s : List Char) (n : Nat) (h : match_style1 s = some n) :
    19 ≤ n ∧ n ≤ s.length := by
  obtain ⟨dw, mw, k, hfw, hsep, hmw, hsp, hdn, h4, hn⟩ := match_style1_some s n h
  obtain ⟨hdmem, -⟩ := first_word_ci_some _ _ _ hfw
  obtain ⟨hmmem, -⟩ := first_word_ci_some _ _ _ hmw
  have hd := day_words_len dw hdmem
  have hm := month_words_len mw hmmem
  have hk := match_day_num_cases _ _ hdn
  have h4l := match_four_digits_min_len _ _ h4
  rw [List.length_drop] at h4l
  omega

theorem match_style2_bounds (s : List Char) (n : Nat) (h : match_style2 s = some n) :
    18 ≤ n ∧ n ≤ s.length := by
  obtain ⟨dw, mw, k, hfw, hsep, hmw, hsp, hdn, h4, hn⟩ := match_style2_some s n h
  obtain ⟨hdmem, -⟩ := first_word_ci_some _ _ _ hfw
  obtain ⟨hmmem, -⟩ := first_word_ci_some _ _ _ hmw
  have hd := day_words_len dw hdmem
  have hm := month_words_len mw hmmem
  have hk := match_day_num_cases _ _ hdn
  have h4l := match_four_digits_min_len _ _ h4
  rw [List.length_drop] at h4l
  omega

theorem match_placeholder_some (s : List Char) (n : Nat)
    (h : match_placeholder s = some n) :
    n = 8 ∧ ci_starts_with DATE_PLACEHOLDER.data s = true := by
  unfold match_placeholder at h
  split at h
  case isTrue hc =>
    injection h with h
    exact ⟨h.symm, hc⟩
  case isFalse => exact absurd h (by simp)

theorem match_placeholder_bounds (s : List Char) (n : Nat)
    (h : match_placeholder s = some n) : 8 ≤ n ∧ n ≤ s.length := by
  obtain ⟨rfl, hc⟩ := match_placeholder_some s n h
  have := ci_starts_with_le_length _ _ hc
  exact ⟨le_refl _, this⟩

/-- Evaluating a component that reads at most `L` characters, at offset `a`
inside the preserved prefix `s.take n`, gives the same answer as on `s`. -/
theorem eval_on_take {α : Type} (A : List Char → α) (L : Nat)
    (hA : ∀ p u v : List Char, L ≤ p.length → A (p ++ u) = A (p ++ v))
    (s t : List Char) (a n : Nat) (ha : a + L ≤ n) (hn : n ≤ s.length) :
    A ((s.take n ++ t).drop a) = A (s.drop a) := by
  have h1 : (s.take n ++ t).drop a = (s.drop a).take (n - a) ++ t := by
    rw [List.drop_append_of_le_length (by simp; omega), List.drop_take]
  calc A ((s.take n ++ t).drop a)
      = A ((s.drop a).take (n - a) ++ t) := by rw [h1]
    _ = A ((s.drop a).take (n - a) ++ (s.drop a).drop (n - a)) := by
        apply hA
        simp only [List.length_take, List.length_drop]
        omega
    _ = A (s.drop a) := by rw [List.take_append_drop]

theorem match_style1_read_bounded (s : List Char) (n : Nat)
    (h : match_style1 s = some n) (t : List Char) :
    match_style1 (s.take n ++ t) = some n := by
  obtain ⟨h19, hle⟩ := match_style1_bounds s n h
  obtain ⟨dw, mw, k, hfw, hsep, hmw, hsp, hdn, h4, hn⟩ := match_style1_some s n h
  obtain ⟨hdmem, -⟩ := first_word_ci_some _ _ _ hfw
  obtain ⟨hmmem, -⟩ := first_word_ci_some _ _ _ hmw
  have hd := day_words_len dw hdmem
  have hm := month_words_len mw hmmem
  have hk := match_day_num_cases _ _ hdn
  have hday : ∀ p u v : List Char, 9 ≤ p.length →
      first_word_ci PATTERN_DAY_WORDS (p ++ u) = first_word_ci PATTERN_DAY_WORDS (p ++ v) := by
    intro p u v hp
    exact first_word_ci_append_indep _ p u v
      (fun w hw => le_trans (day_words_len w hw).2 hp)
  have hmon : ∀ p u v : List Char, 9 ≤ p.length →
      first_word_ci PATTERN_MONTH_WORDS (p ++ u) = first_word_ci PATTERN_MONTH_WORDS (p ++ v) := by
    intro p u v hp
    exact first_word_ci_append_indep _ p u v
      (fun w hw => le_trans (month_words_len w hw).2 hp)
  have c1 : first_word_ci PATTERN_DAY_WORDS (s.take n ++ t) = some dw := by
    have := eval_on_take (first_word_ci PATTERN_DAY_WORDS) 9 hday s t 0 n (by omega) hle
    simpa using this.trans (by simpa using hfw)
  have c2 : ci_starts_with SEP_COMMA ((s.take n ++ t).drop dw.length) = true := by
    have := eval_on_take (ci_starts_with SEP_COMMA) 2
      (fun p u v hp => ci_starts_with_append_indep _ p u v (by simpa [SEP_COMMA] using hp))
      s t dw.length n (by omega) hle
    rw [this]
    exact hsep
  have c3 : first_word_ci PATTERN_MONTH_WORDS ((s.take n ++ t).drop (dw.length + 2)) = some mw := by
    have := eval_on_take (first_word_ci PATTERN_MONTH_WORDS) 9 hmon
      s t (dw.length + 2) n (by omega) hle
    rw [this]
    exact hmw
  have c4 : ci_starts_with [' '] ((s.take n ++ t).drop (dw.length + 2 + mw.length)) = true := by
    have := eval_on_take (ci_starts_with [' ']) 1
      (fun p u v hp => ci_starts_with_append_indep _ p u v (by simpa using hp))
      s t (dw.length + 2 + mw.length) n (by omega) hle
    rw [this]
    exact hsp
  have c5 : match_day_num ((s.take n ++ t).drop (dw.length + 2 + mw.length + 1)) = some k := by
    have := eval_on_take match_day_num 4 match_day_num_append_indep
      s t (dw.length + 2 + mw.length + 1) n (by omega) hle
    rw [this]
    exact hdn
  have c6 : match_four_digits ((s.take n ++ t).drop (dw.length + 2 + mw.length + 1 + k)) = some 4 := by
    have := eval_on_take match_four_digits 4 match_four_digits_append_indep
      s t (dw.length + 2 + mw.length + 1 + k) n (by omega) hle
    rw [this]
    exact h4
  rw [match_style1_build (s.take n ++ t) dw mw k c1 c2 c3 c4 c5 c6, hn]

theorem match_style2_read_bounded (s : List Char) (n : Nat)
    (h : match_style2 s = some n) (t : List Char) :
    match_style2 (s.take n ++ t) = some n := by
  obtain ⟨h18, hle⟩ := match_style2_bounds s n h
  obtain ⟨dw, mw, k, hfw, hsep, hmw, hsp, hdn, h4, hn⟩ := match_style2_some s n h
  obtain ⟨hdmem, -⟩ := first_word_ci_some _ _ _ hfw
  obtain ⟨hmmem, -⟩ := first_word_ci_some _ _ _ hmw
  have hd := day_words_len dw hdmem
  have hm := month_words_len mw hmmem
  have hk := match_day_num_cases _ _ hdn
  have hday : ∀ p u v : List Char, 9 ≤ p.length →
      first_word_ci PATTERN_DAY_WORDS (p ++ u) = first_word_ci PATTERN_DAY_WORDS (p ++ v) := by
    intro p u v hp
    exact first_word_ci_append_indep _ p u v
      (fun w hw => le_trans (day_words_len w hw).2 hp)
  have hmon : ∀ p u v : List Char, 9 ≤ p.length →
      first_word_ci PATTERN_MONTH_WORDS (p ++ u) = first_word_ci PATTERN_MONTH_WORDS (p ++ v) := by
    intro p u v hp
    exact first_word_ci_append_indep _ p u v
      (fun w hw => le_trans (month_words_len w hw).2 hp)
  have c1 : first_word_ci PATTERN_DAY_WORDS (s.take n ++ t) = some dw := by
    have := eval_on_take (first_word_ci PATTERN_DAY_WORDS) 9 hday s t 0 n (by omega) hle
    simpa using this.trans (by simpa using hfw)
  have c2 : ci_starts_with [' '] ((s.take n ++ t).drop dw.length) = true := by
    have := eval_on_take (ci_starts_with [' ']) 1
      (fun p u v hp => ci_starts_with_append_indep _ p u v (by simpa using hp))
      s t dw.length n (by omega) hle
    rw [this]
    exact hsep
  have c3 : first_word_ci PATTERN_MONTH_WORDS ((s.take n ++ t).drop (dw.length + 1)) = some mw := by
    have := eval_on_take (first_word_ci PATTERN_MONTH_WORDS) 9 hmon
      s t (dw.length + 1) n (by omega) hle
    rw [this]
    exact hmw
  have c4 : ci_starts_with [' '] ((s.take n ++ t).drop (dw.length + 1 + mw.length)) = true := by
    have := eval_on_take (ci_starts_with [' ']) 1
      (fun p u v hp => ci_starts_with_append_indep _ p u v (by simpa using hp))
      s t (dw.length + 1 + mw.length) n (by omega) hle
    rw [this]
    exact hsp
  have c5 : match_day_num ((s.take n ++ t).drop (dw.length + 1 + mw.length + 1)) = some k := by
    have := eval_on_take match_day_num 4 match_day_num_append_indep
      s t (dw.length + 1 + mw.length + 1) n (by omega) hle
    rw [this]
    exact hdn
  have c6 : match_four_digits ((s.take n ++ t).drop (dw.length + 1 + mw.length + 1 + k)) = some 4 := by
    have := eval_on_take match_four_digits 4 match_four_digits_append_indep
      s t (dw.length + 1 + mw.length + 1 + k) n (by omega) hle
    rw [this]
    exact h4
  rw [match_style2_build (s.take n ++ t) dw mw k c1 c2 c3 c4 c5 c6, hn]

theorem match_placeholder_read_bounded (s : List Char) (n : Nat)
    (h : match_placeholder s = some n) (t : List Char) :
    match_placeholder (s.take n ++ t) = some n := by
  obtain ⟨h8, hle⟩ := match_placeholder_bounds s n h
  obtain ⟨rfl, hc⟩ := match_placeholder_some s n h
  have hph : ∀ p u v : List Char, 8 ≤ p.length →
      ci_starts_with DATE_PLACEHOLDER.data (p ++ u) = ci_starts_with DATE_PLACEHOLDER.data (p ++ v) := by
    intro p u v hp
    exact ci_starts_with_append_indep _ p u v (by simpa [DATE_PLACEHOLDER] using hp)
  have c1 : ci_starts_with DATE_PLACEHOLDER.data (s.take 8 ++ t) = true := by
    have := eval_on_take (ci_starts_with DATE_PLACEHOLDER.data) 8 hph s t 0 8 (by omega) hle
    simpa using this.trans (by simpa using hc)
  unfold match_placeholder
  rw [c1]
  simp
  decide

/-! ### Character-level blocking facts -/

theorem ci_eq_char_iff (a b : Char) :
    ci_eq_char a b = true ↔ ascii_lower_char a = ascii_lower_char b := by
  simp [ci_eq_char]

theorem ci_eq_char_symm_trans (a b y : Char) (h1 : ci_eq_char a b = true)
    (h2 : ci_eq_char y b = true) : ci_eq_char a y = true := by
  rw [ci_eq_char_iff] at h1 h2 ⊢
  rw [h1, h2]

/-- A mismatch of `p` against the single character `x` blocks `p` on any
text starting with `x`. -/
theorem block_of_mismatch_single (p : List Char) (x : Char) (rest : List Char)
    (h : ci_mismatch_within p [x] = true) :
    ci_starts_with p (x :: rest) = false := by
  cases p with
  | nil => simp [ci_mismatch_within] at h
  | cons a ps =>
      have ha : ci_eq_char a x = false := by
        simp only [ci_mismatch_within, Bool.or_eq_true, Bool.not_eq_true'] at h
        rcases h with h | h
        · exact h
        · cases ps <;> simp [ci_mismatch_within] at h
      simp [ci_starts_with, ha]

/-- A mismatch of `p` against `[y]` blocks `p` on any text whose head is
case-insensitively equal to `y`. -/
theorem block_of_ci_rep (p : List Char) (x y : Char) (rest : List Char)
    (h : ci_mismatch_within p [y] = true) (hxy : ci_eq_char y x = true) :
    ci_starts_with p (x :: rest) = false := by
  cases p with
  | nil => simp [ci_mismatch_within] at h
  | cons a ps =>
      have ha : ci_eq_char a y = false := by
        simp only [ci_mismatch_within, Bool.or_eq_true, Bool.not_eq_true'] at h
        rcases h with h | h
        · exact h
        · cases ps <;> simp [ci_mismatch_within] at h
      have hax : ci_eq_char a x = false := by
        by_contra hc
        rw [Bool.not_eq_false] at hc
        exact absurd (ci_eq_char_symm_trans a x y hc hxy) (by simp [ha])
      simp [ci_starts_with, hax]

/-- `ci_starts_with SEP_COMMA s` pins down the first two characters of `s`
up to case equivalence. -/
theorem sep_comma_chars (s : List Char) (h : ci_starts_with SEP_COMMA s = true) :
    ∃ x1 x2 rest, s = x1 :: x2 :: rest ∧
      ci_eq_char ',' x1 = true ∧ ci_eq_char ' ' x2 = true := by
  match s, h with
  | [x], h => simp [SEP_COMMA, ci_starts_with] at h
  | x1 :: x2 :: rest, h =>
      simp only [SEP_COMMA, ci_starts_with, Bool.and_eq_true] at h
      exact ⟨x1, x2, rest, rfl, h.1, h.2.1⟩

theorem space_char (s : List Char) (h : ci_starts_with [' '] s = true) :
    ∃ x rest, s = x :: rest ∧ ci_eq_char ' ' x = true := by
  match s, h with
  | x :: rest, h =>
      simp only [ci_starts_with, Bool.and_eq_true] at h
      exact ⟨x, rest, rfl, h.1⟩

/-- The characters consumed by a `[0-9]{1,2}", "` match: each is a digit or
case-equivalent to `,` or to a space. -/
theorem match_day_num_chars (u : List Char) (k : Nat) (h : match_day_num u = some k) :
    ∀ q, q < k → ∃ x rest, u.drop q = x :: rest ∧
      (is_digit_char x = true ∨ ci_eq_char ',' x = true ∨ ci_eq_char ' ' x = true) := by
  unfold match_day_num at h
  split at h
  case h_2 => exact absurd h (by simp)
  case h_1 a b rest =>
    split at h
    case isFalse => exact absurd h (by simp)
    case isTrue hda =>
      split at h
      case isTrue hdb =>
          split at h
          case isFalse => exact absurd h (by simp)
          case isTrue hsw =>
            injection h with h
            subst h
            obtain ⟨x1, x2, rest', heq, hx1, hx2⟩ := sep_comma_chars rest hsw
            intro q hq
            interval_cases q
            · exact ⟨a, b :: rest, rfl, Or.inl hda⟩
            · exact ⟨b, rest, rfl, Or.inl hdb⟩
            · exact ⟨x1, x2 :: rest', by simp [heq], Or.inr (Or.inl hx1)⟩
            · exact ⟨x2, rest', by simp [heq], Or.inr (Or.inr hx2)⟩
      case isFalse hdb =>
          split at h
          case isFalse => exact absurd h (by simp)
          case isTrue hsw =>
            injection h with h
            subst h
            obtain ⟨x1, x2, rest', heq, hx1, hx2⟩ := sep_comma_chars (b :: rest) hsw
            intro q hq
            interval_cases q
            · exact ⟨a, b :: rest, rfl, Or.inl hda⟩
            · refine ⟨x1, x2 :: rest', ?_, Or.inr (Or.inl hx1)⟩
              simpa using congrArg (List.drop 0) heq
            · refine ⟨x2, rest', ?_, Or.inr (Or.inr hx2)⟩
              simpa using congrArg (List.drop 1) heq

theorem match_four_digits_chars (u : List Char) (h : match_four_digits u = some 4) :
    ∀ q, q < 4 → ∃ x rest, u.drop q = x :: rest ∧ is_digit_char x = true := by
  unfold match_four_digits at h
  split at h
  case h_2 => exact absurd h (by simp)
  case h_1 a b c d rest =>
    split at h
    case isFalse => exact absurd h (by simp)
    case isTrue hd =>
      simp only [Bool.and_eq_true] at hd
      intro q hq
      interval_cases q
      · exact ⟨a, _, rfl, hd.1.1.1⟩
      · exact ⟨b, _, rfl, hd.1.1.2⟩
      · exact ⟨c, _, rfl, hd.1.2⟩
      · exact ⟨d, _, rfl, hd.2⟩

/-! ### Concrete lexical facts about the pattern words (kernel-checked) -/

theorem day_words_nodup : PATTERN_DAY_WORDS.Nodup := by decide

theorem month_words_nodup : PATTERN_MONTH_WORDS.Nodup := by decide

theorem day_day_blocked : ∀ w ∈ PATTERN_DAY_WORDS, ∀ dw ∈ PATTERN_DAY_WORDS,
    w ≠ dw → ∀ se ∈ [',', ' '], ci_mismatch_within w (dw ++ [se]) = true := by
  decide

theorem month_month_blocked : ∀ w ∈ PATTERN_MONTH_WORDS, ∀ mw ∈ PATTERN_MONTH_WORDS,
    w ≠ mw → ci_mismatch_within w (mw ++ [' ']) = true := by
  decide

theorem day_tail_blocked : ∀ w ∈ PATTERN_DAY_WORDS, ∀ dw ∈ PATTERN_DAY_WORDS,
    ∀ p, p < dw.length → 1 ≤ p → ∀ se ∈ [',', ' '],
    ci_mismatch_within w (dw.drop p ++ [se]) = true := by
  decide

theorem month_head_blocked : ∀ w ∈ PATTERN_DAY_WORDS, ∀ mw ∈ PATTERN_MONTH_WORDS,
    ∀ q, q < mw.length → ci_mismatch_within w (mw.drop q ++ [' ']) = true := by
  decide

theorem day_tail_no_day : ∀ dwA ∈ PATTERN_DAY_WORDS, ∀ p, p < dwA.length → 1 ≤ p →
    ∀ dw ∈ PATTERN_DAY_WORDS, ∀ se ∈ [',', ' '],
    ci_mismatch_within (dwA.drop p) (dw ++ [se]) = true := by
  decide

theorem month_tail_no_day : ∀ mw ∈ PATTERN_MONTH_WORDS, ∀ q, q < mw.length →
    ∀ dw ∈ PATTERN_DAY_WORDS, ∀ se ∈ [',', ' '],
    ci_mismatch_within (mw.drop q ++ [' ']) (dw ++ [se]) = true := by
  decide

theorem day_not_sep : ∀ w ∈ PATTERN_DAY_WORDS,
    ci_mismatch_within w [','] = true ∧ ci_mismatch_within w [' '] = true := by
  decide

theorem day_not_digit : ∀ w ∈ PATTERN_DAY_WORDS, ∀ c ∈ DIGIT_CHARS,
    ci_mismatch_within w [c] = true := by
  decide

theorem ph_tail_no_day : ∀ p, p < 8 → 1 ≤ p → ∀ dw ∈ PATTERN_DAY_WORDS,
    ∀ se ∈ [',', ' '],
    ci_mismatch_within (DATE_PLACEHOLDER.data.drop p) (dw ++ [se]) = true := by
  decide

theorem ph_not_word_char : ∀ w ∈ PATTERN_DAY_WORDS ++ PATTERN_MONTH_WORDS,
    ∀ ch ∈ w, ci_mismatch_within DATE_PLACEHOLDER.data [ch] = true := by
  decide

theorem ph_not_sep : ci_mismatch_within DATE_PLACEHOLDER.data [','] = true ∧
    ci_mismatch_within DATE_PLACEHOLDER.data [' '] = true := by
  decide

theorem ph_not_digit : ∀ c ∈ DIGIT_CHARS,
    ci_mismatch_within DATE_PLACEHOLDER.data [c] = true := by
  decide

/-! ### Self-matches and head mismatches on replacement-shaped text -/

theorem ci_starts_with_append_combine (p : List Char) :
    ∀ (q s : List Char), ci_starts_with p s = true →
    ci_starts_with q (s.drop p.length) = true →
    ci_starts_with (p ++ q) s = true := by
  induction p with
  | nil => intro q s _ h2; simpa using h2
  | cons a ps ih =>
      intro q s h1 h2
      cases s with
      | nil => simp [ci_starts_with] at h1
      | cons b bs =>
          simp only [ci_starts_with, Bool.and_eq_true] at h1
          simp only [List.length_cons, List.drop_succ_cons] at h2
          simp [ci_starts_with, h1.1, ih q bs h1.2 h2]

/-- If `w` itself matches and every other word of the alternation is blocked,
the alternation returns `w` (whatever the order of the words). -/
theorem first_word_ci_eq_of_blocked (w s : List Char)
    (hself : ci_starts_with w s = true) :
    ∀ ws : List (List Char), w ∈ ws →
    (∀ w' ∈ ws, w' ≠ w → ci_starts_with w' s = false) →
    first_word_ci ws s = some w := by
  intro ws
  induction ws with
  | nil => intro hw; simp at hw
  | cons w0 rest ih =>
      intro hw hblock
      by_cases h0 : w0 = w
      · subst h0
        simp [first_word_ci, hself]
      · simp only [first_word_ci]
        rw [hblock w0 (by simp) h0]
        simp only [Bool.false_eq_true, if_false]
        have hw' : w ∈ rest := by
          rcases List.mem_cons.mp hw with h | h
          · exact absurd h.symm h0
          · exact h
        exact ih hw' (fun w' hmem hne => hblock w' (by simp [hmem]) hne)

theorem drop_app (l₁ l₂ : List Char) (n : Nat) (h : n = l₁.length) :
    (l₁ ++ l₂).drop n = l₂ := by
  subst h
  exact List.drop_left l₁ l₂

/-- At the head of a day word followed by `,` or a space, the day-word
alternation returns exactly that word. -/
theorem first_day_word_at (dw : List Char) (hdw : dw ∈ PATTERN_DAY_WORDS)
    (se : Char) (hse : se = ',' ∨ se = ' ') (X : List Char) :
    first_word_ci PATTERN_DAY_WORDS (dw ++ se :: X) = some dw := by
  apply first_word_ci_eq_of_blocked dw _ (ci_starts_with_self_append dw _) _ hdw
  intro w' hmem hne
  have hb := day_day_blocked w' hmem dw hdw hne se
    (by rcases hse with h | h <;> simp [h])
  have := ci_mismatch_blocks w' (dw ++ [se]) hb X
  simpa using this

theorem first_month_word_at (mw : List Char) (hmw : mw ∈ PATTERN_MONTH_WORDS)
    (X : List Char) :
    first_word_ci PATTERN_MONTH_WORDS (mw ++ ' ' :: X) = some mw := by
  apply first_word_ci_eq_of_blocked mw _ (ci_starts_with_self_append mw _) _ hmw
  intro w' hmem hne
  have hb := month_month_blocked w' hmem mw hmw hne
  have := ci_mismatch_blocks w' (mw ++ [' ']) hb X
  simpa using this

/-- Style 1 matches its own replacement shape at the head, consuming exactly
the replacement. -/
theorem match_style1_self (dw mw nm y4 t : List Char)
    (hp : date_text_parts dw mw nm y4) :
    match_style1 (dw ++ ',' :: ' ' :: (mw ++ ' ' :: (nm ++ ',' :: ' ' :: (y4 ++ t)))) =
      some (dw.length + 2 + mw.length + 1 + (nm.length + 2) + 4) := by
  obtain ⟨hdmem, hmmem, hnd, hn1, hn2, hyd, hy4⟩ := hp
  apply match_style1_build
  · exact first_day_word_at dw hdmem ',' (Or.inl rfl) _
  · rw [drop_app dw _ dw.length rfl]
    simp [SEP_COMMA, ci_starts_with, ci_eq_char_refl]
  · rw [show dw ++ ',' :: ' ' :: (mw ++ ' ' :: (nm ++ ',' :: ' ' :: (y4 ++ t)))
        = (dw ++ [',', ' ']) ++ (mw ++ ' ' :: (nm ++ ',' :: ' ' :: (y4 ++ t)))
      from by simp]
    rw [drop_app _ _ _ (by simp)]
    exact first_month_word_at mw hmmem _
  · rw [show dw ++ ',' :: ' ' :: (mw ++ ' ' :: (nm ++ ',' :: ' ' :: (y4 ++ t)))
        = (dw ++ [',', ' '] ++ mw) ++ (' ' :: (nm ++ ',' :: ' ' :: (y4 ++ t)))
      from by simp]
    rw [drop_app _ _ _ (by simp; omega)]
    simp [ci_starts_with, ci_eq_char_refl]
  · rw [show dw ++ ',' :: ' ' :: (mw ++ ' ' :: (nm ++ ',' :: ' ' :: (y4 ++ t)))
        = (dw ++ [',', ' '] ++ mw ++ [' ']) ++ (nm ++ ',' :: ' ' :: (y4 ++ t))
      from by simp]
    rw [drop_app _ _ _ (by simp; omega)]
    have := match_day_num_of_parts nm y4 t hnd hn1 hn2
    simpa [SEP_COMMA] using this
  · rw [show dw ++ ',' :: ' ' :: (mw ++ ' ' :: (nm ++ ',' :: ' ' :: (y4 ++ t)))
        = (dw ++ [',', ' '] ++ mw ++ [' '] ++ nm ++ [',', ' ']) ++ (y4 ++ t)
      from by simp]
    rw [drop_app _ _ _ (by simp; omega)]
    exact match_four_digits_of_digits y4 t hyd hy4

/-- Style 2 matches its own replacement shape at the head, consuming exactly
the replacement. -/
theorem match_style2_self (dw mw nm y4 t : List Char)
    (hp : date_text_parts dw mw nm y4) :
    match_style2 (dw ++ ' ' :: (mw ++ ' ' :: (nm ++ ',' :: ' ' :: (y4 ++ t)))) =
      some (dw.length + 1 + mw.length + 1 + (nm.length + 2) + 4) := by
  obtain ⟨hdmem, hmmem, hnd, hn1, hn2, hyd, hy4⟩ := hp
  apply match_style2_build
  · exact first_day_word_at dw hdmem ' ' (Or.inr rfl) _
  · rw [drop_app dw _ dw.length rfl]
    simp [ci_starts_with, ci_eq_char_refl]
  · rw [show dw ++ ' ' :: (mw ++ ' ' :: (nm ++ ',' :: ' ' :: (y4 ++ t)))
        = (dw ++ [' ']) ++ (mw ++ ' ' :: (nm ++ ',' :: ' ' :: (y4 ++ t)))
      from by simp]
    rw [drop_app _ _ _ (by simp)]
    exact first_month_word_at mw hmmem _
  · rw [show dw ++ ' ' :: (mw ++ ' ' :: (nm ++ ',' :: ' ' :: (y4 ++ t)))
        = (dw ++ [' '] ++ mw) ++ (' ' :: (nm ++ ',' :: ' ' :: (y4 ++ t)))
      from by simp]
    rw [drop_app _ _ _ (by simp; omega)]
    simp [ci_starts_with, ci_eq_char_refl]
  · rw [show dw ++ ' ' :: (mw ++ ' ' :: (nm ++ ',' :: ' ' :: (y4 ++ t)))
        = (dw ++ [' '] ++ mw ++ [' ']) ++ (nm ++ ',' :: ' ' :: (y4 ++ t))
      from by simp]
    rw [drop_app _ _ _ (by simp; omega)]
    have := match_day_num_of_parts nm y4 t hnd hn1 hn2
    simpa [SEP_COMMA] using this
  · rw [show dw ++ ' ' :: (mw ++ ' ' :: (nm ++ ',' :: ' ' :: (y4 ++ t)))
        = (dw ++ [' '] ++ mw ++ [' '] ++ nm ++ [',', ' ']) ++ (y4 ++ t)
      from by simp]
    rw [drop_app _ _ _ (by simp; omega)]
    exact match_four_digits_of_digits y4 t hyd hy4

theorem match_placeholder_none_of_block (s : List Char)
    (h : ci_starts_with DATE_PLACEHOLDER.data s = false) :
    match_placeholder s = none := by
  unfold match_placeholder
  rw [h]
  simp

/-- The placeholder cannot match at the head of a day word. -/
theorem placeholder_not_at_day (dw : List Char) (hdw : dw ∈ PATTERN_DAY_WORDS)
    (X : List Char) : match_placeholder (dw ++ X) = none := by
  have h6 := (day_words_len dw hdw).1
  match dw, h6 with
  | c :: rest, _ =>
      apply match_placeholder_none_of_block
      have hc : c ∈ (c :: rest : List Char) := by simp
      have hm := ph_not_word_char (c :: rest) (by simp [hdw]) c hc
      have := block_of_mismatch_single DATE_PLACEHOLDER.data c (rest ++ X) hm
      simpa using this

/-- Style 1 (which requires `", "` after the day word) cannot match at the
head of a Style 2 replacement (day word followed by a space). -/
theorem style1_not_at_style2_head (dw : List Char) (hdw : dw ∈ PATTERN_DAY_WORDS)
    (X : List Char) : match_style1 (dw ++ ' ' :: X) = none := by
  cases hm : match_style1 (dw ++ ' ' :: X) with
  | none => rfl
  | some n =>
      obtain ⟨dw', mw, k, hfw, hsep, -, -, -, -, -⟩ := match_style1_some _ _ hm
      rw [first_day_word_at dw hdw ' ' (Or.inr rfl) X] at hfw
      injection hfw with hfw
      subst hfw
      rw [drop_app dw _ dw.length rfl] at hsep
      simp [SEP_COMMA, ci_starts_with,
        show ci_eq_char ',' ' ' = false from by decide] at hsep

/-! ### Suffixes of a replacement block are blocked -/

theorem drop_append_ge (l₁ l₂ : List Char) (n : Nat) (h : l₁.length ≤ n) :
    (l₁ ++ l₂).drop n = l₂.drop (n - l₁.length) := by
  have h1 := drop_add (l₁ ++ l₂) l₁.length (n - l₁.length)
  rw [List.drop_left] at h1
  rw [h1]
  congr 1
  omega

theorem drop_head_mem (p : Nat) :
    ∀ l : List Char, p < l.length → ∃ c rest, l.drop p = c :: rest ∧ c ∈ l := by
  induction p with
  | zero =>
      intro l h
      cases l with
      | nil => simp at h
      | cons a as => exact ⟨a, as, rfl, by simp⟩
  | succ p ih =>
      intro l h
      cases l with
      | nil => simp at h
      | cons a as =>
          simp only [List.length_cons] at h
          obtain ⟨c, rest, heq, hmem⟩ := ih as (by omega)
          exact ⟨c, rest, by simpa using heq, by simp [hmem]⟩

/-- Any suffix of the month-onwards tail of a replacement block starts in a
blocked way: inside the month word, at a separator, or at a digit. -/
theorem shape_tail_form (mw nm y4 t : List Char)
    (hnd : ∀ c ∈ nm, is_digit_char c = true)
    (hyd : ∀ c ∈ y4, is_digit_char c = true)
    (q : Nat) (hq : q < mw.length + 1 + nm.length + 2 + y4.length) :
    (∃ j Z, j < mw.length ∧
      (mw ++ (' ' :: (nm ++ (',' :: ' ' :: y4)))).drop q ++ t = (mw.drop j ++ [' ']) ++ Z) ∨
    (∃ Z, (mw ++ (' ' :: (nm ++ (',' :: ' ' :: y4)))).drop q ++ t = ',' :: Z) ∨
    (∃ Z, (mw ++ (' ' :: (nm ++ (',' :: ' ' :: y4)))).drop q ++ t = ' ' :: Z) ∨
    (∃ x Z, x ∈ DIGIT_CHARS ∧
      (mw ++ (' ' :: (nm ++ (',' :: ' ' :: y4)))).drop q ++ t = x :: Z) := by
  rcases Nat.lt_or_ge q mw.length with hc | hc
  · refine Or.inl ⟨q, (nm ++ (',' :: ' ' :: y4)) ++ t, hc, ?_⟩
    rw [List.drop_append_of_le_length (by omega)]
    simp
  · rw [drop_append_ge mw _ q hc]
    set q3 := q - mw.length with hq3
    rcases Nat.eq_zero_or_pos q3 with h3 | h3
    · rw [h3]
      exact Or.inr (Or.inr (Or.inl ⟨(nm ++ (',' :: ' ' :: y4)) ++ t, by simp⟩))
    · have hdr : (' ' :: (nm ++ (',' :: ' ' :: y4))).drop q3
          = (nm ++ (',' :: ' ' :: y4)).drop (q3 - 1) := by
        cases hq3c : q3 with
        | zero => omega
        | succ m => simp [hq3c]
      rw [hdr]
      set q4 := q3 - 1 with hq4
      rcases Nat.lt_or_ge q4 nm.length with h4 | h4
      · obtain ⟨c, rest, heq, hmem⟩ := drop_head_mem q4 nm h4
        refine Or.inr (Or.inr (Or.inr ⟨c, rest ++ (',' :: ' ' :: y4) ++ t,
          is_digit_char_mem c (hnd c hmem), ?_⟩))
        rw [List.drop_append_of_le_length (by omega), heq]
        simp
      · rw [drop_append_ge nm _ q4 h4]
        set q5 := q4 - nm.length with hq5
        rcases Nat.eq_zero_or_pos q5 with h5 | h5
        · rw [h5]
          exact Or.inr (Or.inl ⟨(' ' :: y4) ++ t, by simp⟩)
        · rcases Nat.lt_or_ge q5 2 with h5' | h5'
          · have he1 : q5 = 1 := by omega
            rw [he1]
            exact Or.inr (Or.inr (Or.inl ⟨y4 ++ t, by simp⟩))
          · have hdr2 : (',' :: ' ' :: y4).drop q5 = y4.drop (q5 - 2) := by
              cases hq5c : q5 with
              | zero => omega
              | succ m =>
                  cases hmc : m with
                  | zero => omega
                  | succ m' => simp [hq5c, hmc]
            rw [hdr2]
            have h6 : q5 - 2 < y4.length := by omega
            obtain ⟨c, rest, heq, hmem⟩ := drop_head_mem (q5 - 2) y4 h6
            refine Or.inr (Or.inr (Or.inr ⟨c, rest ++ t,
              is_digit_char_mem c (hyd c hmem), ?_⟩))
            rw [heq]
            simp

/-- Any proper nonempty suffix of a replacement block starts in a blocked
way: inside the day word, inside the month word, at a separator, or at a
digit. -/
theorem repl_shape_suffix_form (sep1 dw mw nm y4 t : List Char)
    (hsep1 : sep1 = [',', ' '] ∨ sep1 = [' '])
    (hnd : ∀ c ∈ nm, is_digit_char c = true)
    (hyd : ∀ c ∈ y4, is_digit_char c = true)
    (p : Nat) (h1 : 1 ≤ p) (h2 : p < (repl_shape sep1 dw mw nm y4).length) :
    (∃ j se Z, 1 ≤ j ∧ j < dw.length ∧ (se = ',' ∨ se = ' ') ∧
      (repl_shape sep1 dw mw nm y4).drop p ++ t = (dw.drop j ++ [se]) ++ Z) ∨
    (∃ j Z, j < mw.length ∧
      (repl_shape sep1 dw mw nm y4).drop p ++ t = (mw.drop j ++ [' ']) ++ Z) ∨
    (∃ Z, (repl_shape sep1 dw mw nm y4).drop p ++ t = ',' :: Z) ∨
    (∃ Z, (repl_shape sep1 dw mw nm y4).drop p ++ t = ' ' :: Z) ∨
    (∃ x Z, x ∈ DIGIT_CHARS ∧
      (repl_shape sep1 dw mw nm y4).drop p ++ t = x :: Z) := by
  have hlen : (repl_shape sep1 dw mw nm y4).length
      = dw.length + sep1.length + mw.length + 1 + nm.length + 2 + y4.length := by
    simp [repl_shape]
    omega
  rcases Nat.lt_or_ge p dw.length with hc | hc
  · have hse : ∃ se R', (se = ',' ∨ se = ' ') ∧ sep1 ++ (mw ++ (' ' :: (nm ++ (',' :: ' ' :: y4))))
        = se :: R' := by
      rcases hsep1 with rfl | rfl
      · exact ⟨',', ' ' :: (mw ++ (' ' :: (nm ++ (',' :: ' ' :: y4)))), Or.inl rfl, rfl⟩
      · exact ⟨' ', mw ++ (' ' :: (nm ++ (',' :: ' ' :: y4))), Or.inr rfl, rfl⟩
    obtain ⟨se, R', hse', hR'⟩ := hse
    refine Or.inl ⟨p, se, R' ++ t, h1, hc, hse', ?_⟩
    unfold repl_shape
    rw [List.drop_append_of_le_length (by omega), hR']
    simp
  · have hdrop : (repl_shape sep1 dw mw nm y4).drop p
        = (sep1 ++ (mw ++ (' ' :: (nm ++ (',' :: ' ' :: y4))))).drop (p - dw.length) := by
      unfold repl_shape
      exact drop_append_ge _ _ p hc
    rw [hdrop]
    set q1 := p - dw.length with hq1
    rcases Nat.lt_or_ge q1 sep1.length with hs | hs
    · rcases hsep1 with rfl | rfl
      · rcases Nat.eq_zero_or_pos q1 with h0 | h0
        · rw [h0]
          exact Or.inr (Or.inr (Or.inl
            ⟨' ' :: (mw ++ (' ' :: (nm ++ (',' :: ' ' :: y4)))) ++ t, by simp⟩))
        · have : q1 = 1 := by simp at hs; omega
          rw [this]
          exact Or.inr (Or.inr (Or.inr (Or.inl
            ⟨(mw ++ (' ' :: (nm ++ (',' :: ' ' :: y4)))) ++ t, by simp⟩)))
      · have : q1 = 0 := by simp at hs; omega
        rw [this]
        exact Or.inr (Or.inr (Or.inr (Or.inl
          ⟨(mw ++ (' ' :: (nm ++ (',' :: ' ' :: y4)))) ++ t, by simp⟩)))
    · rw [drop_append_ge sep1 _ q1 hs]
      have hq : q1 - sep1.length < mw.length + 1 + nm.length + 2 + y4.length := by
        rw [hlen] at h2
        omega
      rcases shape_tail_form mw nm y4 t hnd hyd (q1 - sep1.length) hq with
        h | h | h | h
      · exact Or.inr (Or.inl h)
      · exact Or.inr (Or.inr (Or.inl h))
      · exact Or.inr (Or.inr (Or.inr (Or.inl h)))
      · exact Or.inr (Or.inr (Or.inr (Or.inr h)))

theorem ph_not_day_tail : ∀ dw ∈ PATTERN_DAY_WORDS, ∀ j, j < dw.length →
    ∀ se ∈ [',', ' '],
    ci_mismatch_within DATE_PLACEHOLDER.data (dw.drop j ++ [se]) = true := by
  decide

theorem ph_not_month_tail : ∀ mw ∈ PATTERN_MONTH_WORDS, ∀ j, j < mw.length →
    ci_mismatch_within DATE_PLACEHOLDER.data (mw.drop j ++ [' ']) = true := by
  decide

/-- No day word of the alternation matches at any proper nonempty suffix of
a replacement block. -/
theorem day_alt_none_at_suffix (sep1 dw mw nm y4 : List Char)
    (hsep1 : sep1 = [',', ' '] ∨ sep1 = [' '])
    (hp : date_text_parts dw mw nm y4)
    (p : Nat) (h1 : 1 ≤ p) (h2 : p < (repl_shape sep1 dw mw nm y4).length)
    (t : List Char) :
    first_word_ci PATTERN_DAY_WORDS ((repl_shape sep1 dw mw nm y4).drop p ++ t)
      = none := by
  obtain ⟨hdmem, hmmem, hnd, -, -, hyd, -⟩ := hp
  rcases repl_shape_suffix_form sep1 dw mw nm y4 t hsep1 hnd hyd p h1 h2 with
    ⟨j, se, Z, hj1, hj2, hse, heq⟩ | ⟨j, Z, hj, heq⟩ | ⟨Z, heq⟩ | ⟨Z, heq⟩ |
    ⟨x, Z, hx, heq⟩ <;> rw [heq] <;> apply first_word_ci_none <;> intro w hw
  · exact ci_mismatch_blocks w _
      (day_tail_blocked w hw dw hdmem j hj2 hj1 se
        (by rcases hse with h | h <;> simp [h])) Z
  · exact ci_mismatch_blocks w _ (month_head_blocked w hw mw hmmem j hj) Z
  · exact block_of_mismatch_single w ',' Z (day_not_sep w hw).1
  · exact block_of_mismatch_single w ' ' Z (day_not_sep w hw).2
  · exact block_of_mismatch_single w x Z (day_not_digit w hw x hx)

theorem match_style1_none_of_no_day (s : List Char)
    (h : first_word_ci PATTERN_DAY_WORDS s = none) : match_style1 s = none := by
  cases hm : match_style1 s with
  | none => rfl
  | some n =>
      obtain ⟨dw, -, -, hfw, -, -, -, -, -, -⟩ := match_style1_some _ _ hm
      rw [h] at hfw
      exact absurd hfw (by simp)

theorem match_style2_none_of_no_day (s : List Char)
    (h : first_word_ci PATTERN_DAY_WORDS s = none) : match_style2 s = none := by
  cases hm : match_style2 s with
  | none => rfl
  | some n =>
      obtain ⟨dw, -, -, hfw, -, -, -, -, -, -⟩ := match_style2_some _ _ hm
      rw [h] at hfw
      exact absurd hfw (by simp)

/-- The placeholder matcher finds nothing at any proper nonempty suffix of a
replacement block. -/
theorem placeholder_none_at_suffix (sep1 dw mw nm y4 : List Char)
    (hsep1 : sep1 = [',', ' '] ∨ sep1 = [' '])
    (hp : date_text_parts dw mw nm y4)
    (p : Nat) (h1 : 1 ≤ p) (h2 : p < (repl_shape sep1 dw mw nm y4).length)
    (t : List Char) :
    match_placeholder ((repl_shape sep1 dw mw nm y4).drop p ++ t) = none := by
  obtain ⟨hdmem, hmmem, hnd, -, -, hyd, -⟩ := hp
  apply match_placeholder_none_of_block
  rcases repl_shape_suffix_form sep1 dw mw nm y4 t hsep1 hnd hyd p h1 h2 with
    ⟨j, se, Z, hj1, hj2, hse, heq⟩ | ⟨j, Z, hj, heq⟩ | ⟨Z, heq⟩ | ⟨Z, heq⟩ |
    ⟨x, Z, hx, heq⟩ <;> rw [heq]
  · exact ci_mismatch_blocks _ _
      (ph_not_day_tail dw hdmem j hj2 se (by rcases hse with h | h <;> simp [h])) Z
  · exact ci_mismatch_blocks _ _ (ph_not_month_tail mw hmmem j hj) Z
  · exact block_of_mismatch_single _ ',' Z ph_not_sep.1
  · exact block_of_mismatch_single _ ' ' Z ph_not_sep.2
  · exact block_of_mismatch_single _ x Z (ph_not_digit x hx)

/-! ### No match crosses from preceding text into a replacement block -/

theorem ci_eq_char_comm (a b : Char) : ci_eq_char a b = ci_eq_char b a := by
  by_cases h : ascii_lower_char a = ascii_lower_char b
  · simp [ci_eq_char, h]
  · have h' : ascii_lower_char b ≠ ascii_lower_char a := fun hc => h hc.symm
    simp [ci_eq_char, h, h']

theorem mismatch_single_head (c0 : Char) (tail : List Char) (y : Char)
    (h : ci_mismatch_within (c0 :: tail) [y] = true) : ci_eq_char c0 y = false := by
  simp only [ci_mismatch_within, Bool.or_eq_true, Bool.not_eq_true'] at h
  rcases h with h | h
  · exact h
  · cases tail <;> simp [ci_mismatch_within] at h

/-- A Style 1 match in text followed by a replacement block stays inside the
preceding text: it cannot reach the block's day-word head. -/
theorem style1_no_cross (w dw' : List Char) (se : Char) (Rt : List Char) (n : Nat)
    (hw : w ≠ []) (hdw' : dw' ∈ PATTERN_DAY_WORDS) (hse : se = ',' ∨ se = ' ')
    (h : match_style1 (w ++ (dw' ++ se :: Rt)) = some n) : n ≤ w.length := by
  by_contra hgt
  push_neg at hgt
  obtain ⟨dw, mw, k, hfw, hsep, hmw, hsp, hdn, h4, hn⟩ := match_style1_some _ _ h
  obtain ⟨hdmem, hdsw⟩ := first_word_ci_some _ _ _ hfw
  obtain ⟨hmmem, -⟩ := first_word_ci_some _ _ _ hmw
  have hw1 : 1 ≤ w.length := by
    cases w with
    | nil => exact absurd rfl hw
    | cons a l => simp
  have hsemem : se ∈ ([',', ' '] : List Char) := by
    rcases hse with h | h <;> simp [h]
  obtain ⟨c0, dtail, hc0⟩ : ∃ c0 dtail, dw' = c0 :: dtail := by
    cases dw' with
    | nil => exact absurd (day_words_len [] hdw').1 (by simp)
    | cons a l => exact ⟨a, l, rfl⟩
  have hsw : (w ++ (dw' ++ se :: Rt)).drop w.length = dw' ++ se :: Rt :=
    drop_app w _ w.length rfl
  have hk := match_day_num_cases _ _ hdn
  have hc0sep := day_not_sep dw' hdw'
  have hc0comma : ci_eq_char c0 ',' = false :=
    mismatch_single_head c0 dtail ',' (hc0 ▸ hc0sep.1)
  have hc0space : ci_eq_char c0 ' ' = false :=
    mismatch_single_head c0 dtail ' ' (hc0 ▸ hc0sep.2)
  have hcases : w.length < dw.length ∨ w.length = dw.length ∨
      w.length = dw.length + 1 ∨
      (dw.length + 2 ≤ w.length ∧ w.length < dw.length + 2 + mw.length) ∨
      w.length = dw.length + 2 + mw.length ∨
      (dw.length + 2 + mw.length + 1 ≤ w.length ∧
        w.length < dw.length + 2 + mw.length + 1 + k) ∨
      dw.length + 2 + mw.length + 1 + k ≤ w.length := by omega
  rcases hcases with hc | hc | hc | ⟨hca, hcb⟩ | hc | ⟨hca, hcb⟩ | hc
  · -- inside the observer's day word
    have hdr := ci_starts_with_drop w.length _ _ hdsw
    rw [hsw] at hdr
    have hb := ci_mismatch_blocks (dw.drop w.length) (dw' ++ [se])
      (day_tail_no_day dw hdmem w.length hc hw1 dw' hdw' se hsemem) Rt
    rw [show (dw' ++ [se]) ++ Rt = dw' ++ se :: Rt from by simp] at hb
    rw [hb] at hdr
    exact absurd hdr (by simp)
  · -- at the comma of the observer's ", " separator
    rw [← hc, hsw, hc0] at hsep
    simp only [SEP_COMMA, ci_starts_with, Bool.and_eq_true] at hsep
    have := ci_eq_char_comm ',' c0
    rw [hsep.1, hc0comma] at this
    exact absurd this (by simp)
  · -- at the space of the observer's ", " separator
    have hdr := ci_starts_with_drop 1 _ _ hsep
    rw [drop_add, ← hc, hsw, hc0] at hdr
    simp only [SEP_COMMA, List.drop_succ_cons, List.drop_nil, ci_starts_with,
      Bool.and_eq_true] at hdr
    have := ci_eq_char_comm ' ' c0
    rw [hdr.1, hc0space] at this
    exact absurd this (by simp)
  · -- inside the observer's month word
    obtain ⟨-, hmsw⟩ := first_word_ci_some _ _ _ hmw
    set q := w.length - (dw.length + 2) with hq
    have hdr := ci_starts_with_drop q _ _ hmsw
    rw [drop_add] at hdr
    have hq1 : dw.length + 2 + q = w.length := by omega
    rw [hq1, hsw] at hdr
    have h2 : (w ++ (dw' ++ se :: Rt)).drop (dw.length + 2 + mw.length)
        = (dw' ++ se :: Rt).drop (mw.length - q) := by
      rw [drop_append_ge _ _ _ (by omega)]
      congr 1
      omega
    have hsp' : ci_starts_with [' ']
        ((dw' ++ se :: Rt).drop (mw.drop q).length) = true := by
      rw [show (mw.drop q).length = mw.length - q from by simp, ← h2]
      exact hsp
    have hcomb := ci_starts_with_append_combine (mw.drop q) [' ']
      (dw' ++ se :: Rt) hdr hsp'
    have hb := ci_mismatch_blocks (mw.drop q ++ [' ']) (dw' ++ [se])
      (month_tail_no_day mw hmmem q (by omega) dw' hdw' se hsemem) Rt
    rw [show (dw' ++ [se]) ++ Rt = dw' ++ se :: Rt from by simp] at hb
    rw [hb] at hcomb
    exact absurd hcomb (by simp)
  · -- at the observer's space before the day number
    rw [← hc, hsw, hc0] at hsp
    simp only [ci_starts_with, Bool.and_eq_true] at hsp
    have := ci_eq_char_comm ' ' c0
    rw [hsp.1, hc0space] at this
    exact absurd this (by simp)
  · -- inside the observer's day-number element
    set q := w.length - (dw.length + 2 + mw.length + 1) with hq
    obtain ⟨x, rest, heq, hx⟩ := match_day_num_chars _ _ hdn q (by omega)
    rw [drop_add] at heq
    have hq1 : dw.length + 2 + mw.length + 1 + q = w.length := by omega
    rw [hq1, hsw, hc0] at heq
    simp only [List.cons_append, List.cons.injEq] at heq
    rcases hx with hx | hx | hx
    · rw [← heq.1] at hx
      have hmm := day_not_digit dw' hdw' c0 (is_digit_char_mem c0 hx)
      have := mismatch_single_head c0 dtail c0 (hc0 ▸ hmm)
      rw [ci_eq_char_refl] at this
      exact absurd this (by simp)
    · rw [← heq.1] at hx
      have := ci_eq_char_comm ',' c0
      rw [hx, hc0comma] at this
      exact absurd this (by simp)
    · rw [← heq.1] at hx
      have := ci_eq_char_comm ' ' c0
      rw [hx, hc0space] at this
      exact absurd this (by simp)
  · -- inside the observer's year element
    set q := w.length - (dw.length + 2 + mw.length + 1 + k) with hq
    obtain ⟨x, rest, heq, hx⟩ := match_four_digits_chars _ h4 q (by omega)
    rw [drop_add] at heq
    have hq1 : dw.length + 2 + mw.length + 1 + k + q = w.length := by omega
    rw [hq1, hsw, hc0] at heq
    simp only [List.cons_append, List.cons.injEq] at heq
    rw [← heq.1] at hx
    have hmm := day_not_digit dw' hdw' c0 (is_digit_char_mem c0 hx)
    have := mismatch_single_head c0 dtail c0 (hc0 ▸ hmm)
    rw [ci_eq_char_refl] at this
    exact absurd this (by simp)

/-- A Style 2 match in text followed by a replacement block stays inside the
preceding text. -/
theorem style2_no_cross (w dw' : List Char) (se : Char) (Rt : List Char) (n : Nat)
    (hw : w ≠ []) (hdw' : dw' ∈ PATTERN_DAY_WORDS) (hse : se = ',' ∨ se = ' ')
    (h : match_style2 (w ++ (dw' ++ se :: Rt)) = some n) : n ≤ w.length := by
  by_contra hgt
  push_neg at hgt
  obtain ⟨dw, mw, k, hfw, hsep, hmw, hsp, hdn, h4, hn⟩ := match_style2_some _ _ h
  obtain ⟨hdmem, hdsw⟩ := first_word_ci_some _ _ _ hfw
  obtain ⟨hmmem, -⟩ := first_word_ci_some _ _ _ hmw
  have hw1 : 1 ≤ w.length := by
    cases w with
    | nil => exact absurd rfl hw
    | cons a l => simp
  have hsemem : se ∈ ([',', ' '] : List Char) := by
    rcases hse with h | h <;> simp [h]
  obtain ⟨c0, dtail, hc0⟩ : ∃ c0 dtail, dw' = c0 :: dtail := by
    cases dw' with
    | nil => exact absurd (day_words_len [] hdw').1 (by simp)
    | cons a l => exact ⟨a, l, rfl⟩
  have hsw : (w ++ (dw' ++ se :: Rt)).drop w.length = dw' ++ se :: Rt :=
    drop_app w _ w.length rfl
  have hk := match_day_num_cases _ _ hdn
  have hc0sep := day_not_sep dw' hdw'
  have hc0comma : ci_eq_char c0 ',' = false :=
    mismatch_single_head c0 dtail ',' (hc0 ▸ hc0sep.1)
  have hc0space : ci_eq_char c0 ' ' = false :=
    mismatch_single_head c0 dtail ' ' (hc0 ▸ hc0sep.2)
  have hcases : w.length < dw.length ∨ w.length = dw.length ∨
      (dw.length + 1 ≤ w.length ∧ w.length < dw.length + 1 + mw.length) ∨
      w.length = dw.length + 1 + mw.length ∨
      (dw.length + 1 + mw.length + 1 ≤ w.length ∧
        w.length < dw.length + 1 + mw.length + 1 + k) ∨
      dw.length + 1 + mw.length + 1 + k ≤ w.length := by omega
  rcases hcases with hc | hc | ⟨hca, hcb⟩ | hc | ⟨hca, hcb⟩ | hc
  · -- inside the observer's day word
    have hdr := ci_starts_with_drop w.length _ _ hdsw
    rw [hsw] at hdr
    have hb := ci_mismatch_blocks (dw.drop w.length) (dw' ++ [se])
      (day_tail_no_day dw hdmem w.length hc hw1 dw' hdw' se hsemem) Rt
    rw [show (dw' ++ [se]) ++ Rt = dw' ++ se :: Rt from by simp] at hb
    rw [hb] at hdr
    exact absurd hdr (by simp)
  · -- at the observer's space after the day word
    rw [← hc, hsw, hc0] at hsep
    simp only [ci_starts_with, Bool.and_eq_true] at hsep
    have := ci_eq_char_comm ' ' c0
    rw [hsep.1, hc0space] at this
    exact absurd this (by simp)
  · -- inside the observer's month word
    obtain ⟨-, hmsw⟩ := first_word_ci_some _ _ _ hmw
    set q := w.length - (dw.length + 1) with hq
    have hdr := ci_starts_with_drop q _ _ hmsw
    rw [drop_add] at hdr
    have hq1 : dw.length + 1 + q = w.length := by omega
    rw [hq1, hsw] at hdr
    have h2 : (w ++ (dw' ++ se :: Rt)).drop (dw.length + 1 + mw.length)
        = (dw' ++ se :: Rt).drop (mw.length - q) := by
      rw [drop_append_ge _ _ _ (by omega)]
      congr 1
      omega
    have hsp' : ci_starts_with [' ']
        ((dw' ++ se :: Rt).drop (mw.drop q).length) = true := by
      rw [show (mw.drop q).length = mw.length - q from by simp, ← h2]
      exact hsp
    have hcomb := ci_starts_with_append_combine (mw.drop q) [' ']
      (dw' ++ se :: Rt) hdr hsp'
    have hb := ci_mismatch_blocks (mw.drop q ++ [' ']) (dw' ++ [se])
      (month_tail_no_day mw hmmem q (by omega) dw' hdw' se hsemem) Rt
    rw [show (dw' ++ [se]) ++ Rt = dw' ++ se :: Rt from by simp] at hb
    rw [hb] at hcomb
    exact absurd hcomb (by simp)
  · -- at the observer's space before the day number
    rw [← hc, hsw, hc0] at hsp
    simp only [ci_starts_with, Bool.and_eq_true] at hsp
    have := ci_eq_char_comm ' ' c0
    rw [hsp.1, hc0space] at this
    exact absurd this (by simp)
  · -- inside the observer's day-number element
    set q := w.length - (dw.length + 1 + mw.length + 1) with hq
    obtain ⟨x, rest, heq, hx⟩ := match_day_num_chars _ _ hdn q (by omega)
    rw [drop_add] at heq
    have hq1 : dw.length + 1 + mw.length + 1 + q = w.length := by omega
    rw [hq1, hsw, hc0] at heq
    simp only [List.cons_append, List.cons.injEq] at heq
    rcases hx with hx | hx | hx
    · rw [← heq.1] at hx
      have hmm := day_not_digit dw' hdw' c0 (is_digit_char_mem c0 hx)
      have := mismatch_single_head c0 dtail c0 (hc0 ▸ hmm)
      rw [ci_eq_char_refl] at this
      exact absurd this (by simp)
    · rw [← heq.1] at hx
      have := ci_eq_char_comm ',' c0
      rw [hx, hc0comma] at this
      exact absurd this (by simp)
    · rw [← heq.1] at hx
      have := ci_eq_char_comm ' ' c0
      rw [hx, hc0space] at this
      exact absurd this (by simp)
  · -- inside the observer's year element
    set q := w.length - (dw.length + 1 + mw.length + 1 + k) with hq
    obtain ⟨x, rest, heq, hx⟩ := match_four_digits_chars _ h4 q (by omega)
    rw [drop_add] at heq
    have hq1 : dw.length + 1 + mw.length + 1 + k + q = w.length := by omega
    rw [hq1, hsw, hc0] at heq
    simp only [List.cons_append, List.cons.injEq] at heq
    rw [← heq.1] at hx
    have hmm := day_not_digit dw' hdw' c0 (is_digit_char_mem c0 hx)
    have := mismatch_single_head c0 dtail c0 (hc0 ▸ hmm)
    rw [ci_eq_char_refl] at this
    exact absurd this (by simp)

/-- A placeholder match in text followed by a replacement block stays inside
the preceding text. -/
theorem placeholder_no_cross (w dw' : List Char) (se : Char) (Rt : List Char)
    (n : Nat) (hw : w ≠ []) (hdw' : dw' ∈ PATTERN_DAY_WORDS)
    (hse : se = ',' ∨ se = ' ')
    (h : match_placeholder (w ++ (dw' ++ se :: Rt)) = some n) : n ≤ w.length := by
  by_contra hgt
  push_neg at hgt
  obtain ⟨rfl, hsw⟩ := match_placeholder_some _ _ h
  have hw1 : 1 ≤ w.length := by
    cases w with
    | nil => exact absurd rfl hw
    | cons a l => simp
  have hsemem : se ∈ ([',', ' '] : List Char) := by
    rcases hse with h | h <;> simp [h]
  have hdr := ci_starts_with_drop w.length _ _ hsw
  rw [drop_app w _ w.length rfl] at hdr
  have hb := ci_mismatch_blocks (DATE_PLACEHOLDER.data.drop w.length) (dw' ++ [se])
    (ph_tail_no_day w.length (by simpa using hgt) hw1 dw' hdw' se hsemem) Rt
  rw [show (dw' ++ [se]) ++ Rt = dw' ++ se :: Rt from by simp] at hb
  rw [hb] at hdr
  exact absurd hdr (by simp)

theorem find_replace_all_chunks (m : List Char → Option Nat) (repl : List Char) :
    ∀ fuel s, s.length ≤ fuel →
    ScanChunks m repl s (find_replace_all m repl fuel s) := by
  intro fuel
  induction fuel with
  | zero =>
      intro s h
      cases s with
      | nil => exact ScanChunks.nil
      | cons c rest => simp at h
  | succ fuel ih =>
      intro s h
      cases s with
      | nil => exact ScanChunks.nil
      | cons c rest =>
          cases hm : m (c :: rest) with
          | none =>
              rw [show find_replace_all m repl (fuel + 1) (c :: rest)
                  = (match m (c :: rest) with
                     | some n => repl ++
                         find_replace_all m repl fuel ((c :: rest).drop (max n 1))
                     | none => c :: find_replace_all m repl fuel rest) from rfl, hm]
              exact ScanChunks.copy c rest _ hm
                (ih rest (by simp only [List.length_cons] at h; omega))
          | some n =>
              rw [show find_replace_all m repl (fuel + 1) (c :: rest)
                  = (match m (c :: rest) with
                     | some n => repl ++
                         find_replace_all m repl fuel ((c :: rest).drop (max n 1))
                     | none => c :: find_replace_all m repl fuel rest) from rfl, hm]
              refine ScanChunks.replaced (c :: rest) n _ hm (by simp) (ih _ ?_)
              simp only [List.length_drop, List.length_cons] at h ⊢
              omega

theorem run_find_replace_chunks (m : List Char → Option Nat) (repl s : List Char) :
    ScanChunks m repl s (run_find_replace m repl s) :=
  find_replace_all_chunks m repl s.length s le_rfl

theorem NoMatch_suffix (Y : List Char → Option Nat) (t u : List Char)
    (h : NoMatch Y t) (hu : u <:+ t) : NoMatch Y u :=
  fun v n hv hs => h v n (hv.trans hu) hs

theorem MatchesExact_suffix (X : List Char → Option Nat) (xr t u : List Char)
    (h : MatchesExact X xr t) (hu : u <:+ t) : MatchesExact X xr u :=
  fun v n hv => h v n (hv.trans hu)

/-- Core transport: if the observer `Y` found nothing at a position of the
input, it finds nothing at the corresponding position of the scan output —
matches cannot cross into a replacement block (`Ycross`) and `Y` only reads
the text it matches (`Yread`). -/
theorem scan_no_new_match (X : List Char → Option Nat) (xr : List Char)
    (Y : List Char → Option Nat)
    (Yread : ∀ u n t, Y u = some n → Y (u.take n ++ t) = some n)
    (Ycross : ∀ w t n, w ≠ [] → Y (w ++ (xr ++ t)) = some n → n ≤ w.length) :
    ∀ s out, ScanChunks X xr s out →
    ∀ w n, w ≠ [] → Y (w ++ s) = none → Y (w ++ out) = some n → False := by
  intro s out hd
  induction hd with
  | nil =>
      intro w n hw h1 h2
      rw [h1] at h2
      exact absurd h2 (by simp)
  | copy c s' out' hnone hd' ih =>
      intro w n hw h1 h2
      apply ih (w ++ [c]) n (by simp)
      · rw [show (w ++ [c]) ++ s' = w ++ (c :: s') from by simp]
        exact h1
      · rw [show (w ++ [c]) ++ out' = w ++ (c :: out') from by simp]
        exact h2
  | replaced s' j out' hsome hne hd' ih =>
      intro w n hw h1 h2
      have hle := Ycross w out' n hw h2
      have hr := Yread (w ++ (xr ++ out')) n ((w ++ s').drop n) h2
      rw [show (w ++ (xr ++ out')).take n = (w ++ s').take n from by
        rw [List.take_append_of_le_length hle,
          List.take_append_of_le_length hle]] at hr
      rw [List.take_append_drop] at hr
      rw [h1] at hr
      exact absurd hr (by simp)

/-- Establishment: after a scan of `X` with replacement `xr`, every `X`-match
in the output is exactly `xr` — copied positions cannot match (they tested
`none` and nothing crosses into blocks), block heads match exactly `xr` (or
nothing), and block interiors are blocked. -/
theorem scan_establishes (X : List Char → Option Nat) (xr : List Char)
    (Xbound : ∀ u n, X u = some n → 1 ≤ n ∧ n ≤ u.length)
    (Xread : ∀ u n t, X u = some n → X (u.take n ++ t) = some n)
    (Xcross : ∀ w t n, w ≠ [] → X (w ++ (xr ++ t)) = some n → n ≤ w.length)
    (Xinner : ∀ p, 1 ≤ p → p < xr.length → ∀ t, X (xr.drop p ++ t) = none)
    (Xhead : (∀ t, X (xr ++ t) = some xr.length) ∨ (∀ t, X (xr ++ t) = none)) :
    ∀ s out, ScanChunks X xr s out → MatchesExact X xr out := by
  intro s out hd
  induction hd with
  | nil =>
      intro u n hu hsome
      obtain rfl := List.suffix_nil.mp hu
      have hb := Xbound [] n hsome
      simp at hb
      omega
  | copy c s' out' hnone hd' ih =>
      intro u n hu hsome
      rcases List.suffix_cons_iff.mp hu with rfl | hu'
      · exact absurd hsome (fun hs =>
          scan_no_new_match X xr X Xread Xcross s' out' hd' [c] n (by simp)
            (by simpa using hnone) (by simpa using hs))
      · exact ih u n hu' hsome
  | replaced s' j out' hsome' hne hd' ih =>
      intro u n hu hsome
      obtain ⟨v, hv⟩ := hu
      have hvlen : v.length + u.length = xr.length + out'.length := by
        have := congrArg List.length hv
        simpa using this
      rcases le_or_lt u.length out'.length with hl | hl
      · have hu2 : u = out'.drop (v.length - xr.length) := by
          have h0 : (v ++ u).drop v.length = u := drop_app v u _ rfl
          rw [hv, drop_append_ge _ _ _ (by omega)] at h0
          exact h0.symm
        exact ih u n (hu2 ▸ List.drop_suffix _ _) hsome
      · have hp : v.length < xr.length := by omega
        have hu2 : u = xr.drop v.length ++ out' := by
          have h0 : (v ++ u).drop v.length = u := drop_app v u _ rfl
          rw [hv, List.drop_append_of_le_length (by omega)] at h0
          exact h0.symm
        rcases Nat.eq_zero_or_pos v.length with h0 | h0
        · rw [h0] at hu2
          simp only [List.drop_zero] at hu2
          rcases Xhead with hh | hh
          · rw [hu2, hh out'] at hsome
            injection hsome with hsome
            refine ⟨hsome.symm, ?_⟩
            rw [hu2, ← hsome, List.take_left]
          · rw [hu2, hh out'] at hsome
            exact absurd hsome (by simp)
        · rw [hu2, Xinner v.length h0 hp out'] at hsome
          exact absurd hsome (by simp)

/-- A foreign block `yr` on which the scanned matcher `X` never fires
(at its head or inside it) is copied to the output verbatim, and the scan
continues identically after it. -/
theorem scan_copies_foreign_block (X : List Char → Option Nat) (xr yr : List Char)
    (XonY : ∀ p, p < yr.length → ∀ t, X (yr.drop p ++ t) = none) :
    ∀ k s out, ScanChunks X xr s out → ∀ p, p + k = yr.length →
    s.take k = yr.drop p →
    out.take k = yr.drop p ∧ ScanChunks X xr (s.drop k) (out.drop k) := by
  intro k
  induction k with
  | zero =>
      intro s out hd p hp ht
      have hnil : yr.drop p = [] := by
        rw [show p = yr.length from by omega, List.drop_length]
      exact ⟨by simpa [hnil] using rfl, by simpa using hd⟩
  | succ k ihk =>
      intro s out hd p hp ht
      have hslen : k + 1 ≤ s.length := by
        have := congrArg List.length ht
        simp only [List.length_take, List.length_drop] at this
        omega
      have hsdecomp : s = yr.drop p ++ s.drop (k + 1) := by
        conv_lhs => rw [← List.take_append_drop (k + 1) s]
        rw [ht]
      have hXnone : X s = none := by
        rw [hsdecomp]
        exact XonY p (by omega) _
      cases hd with
      | nil => simp at hslen
      | copy c s' out' hnone hd' =>
          simp only [List.take_succ_cons] at ht
          have ht' : s'.take k = yr.drop (p + 1) :=
            calc s'.take k = (c :: s'.take k).drop 1 := rfl
              _ = (yr.drop p).drop 1 := by rw [ht]
              _ = yr.drop (p + 1) := drop_add yr p 1
          obtain ⟨hout', hd''⟩ := ihk s' out' hd' (p + 1) (by omega) ht'
          refine ⟨?_, by simpa using hd''⟩
          simp only [List.take_succ_cons, hout']
          rw [← ht']
          exact ht
      | replaced s0 j out' hsome hne hd' =>
          exact absurd hsome (by rw [hXnone]; simp)

/-- Preservation of absence: if `Y` matched nowhere in the input and cannot
match at, inside, or across the inserted `xr` blocks, it matches nowhere in
the output. -/
theorem scan_preserves_nomatch (X : List Char → Option Nat) (xr : List Char)
    (Y : List Char → Option Nat)
    (Yread : ∀ u n t, Y u = some n → Y (u.take n ++ t) = some n)
    (Ycross : ∀ w t n, w ≠ [] → Y (w ++ (xr ++ t)) = some n → n ≤ w.length)
    (Yhead : ∀ t, Y (xr ++ t) = none)
    (Yinner : ∀ p, 1 ≤ p → p < xr.length → ∀ t, Y (xr.drop p ++ t) = none) :
    ∀ s out, ScanChunks X xr s out → NoMatch Y s → NoMatch Y out := by
  intro s out hd
  induction hd with
  | nil => exact fun h => h
  | copy c s' out' hnone hd' ih =>
      intro hin u n hu hsome
      rcases List.suffix_cons_iff.mp hu with rfl | hu'
      · have hYnone : Y (c :: s') = none := by
          cases hy : Y (c :: s') with
          | none => rfl
          | some j => exact absurd hy (fun hh => hin (c :: s') j List.suffix_rfl hh)
        exact scan_no_new_match X xr Y Yread Ycross s' out' hd' [c] n (by simp)
          (by simpa using hYnone) (by simpa using hsome)
      · exact ih (NoMatch_suffix Y (c :: s') s' hin (List.suffix_cons c s'))
          u n hu' hsome
  | replaced s' j out' hsome' hne hd' ih =>
      intro hin u n hu hsome
      have hin' := NoMatch_suffix Y s' _ hin (List.drop_suffix (max j 1) s')
      obtain ⟨v, hv⟩ := hu
      have hvlen : v.length + u.length = xr.length + out'.length := by
        have := congrArg List.length hv
        simpa using this
      rcases le_or_lt u.length out'.length with hl | hl
      · have hu2 : u = out'.drop (v.length - xr.length) := by
          have h0 : (v ++ u).drop v.length = u := drop_app v u _ rfl
          rw [hv, drop_append_ge _ _ _ (by omega)] at h0
          exact h0.symm
        exact ih hin' u n (hu2 ▸ List.drop_suffix _ _) hsome
      · have hp : v.length < xr.length := by omega
        have hu2 : u = xr.drop v.length ++ out' := by
          have h0 : (v ++ u).drop v.length = u := drop_app v u _ rfl
          rw [hv, List.drop_append_of_le_length (by omega)] at h0
          exact h0.symm
        rcases Nat.eq_zero_or_pos v.length with h0 | h0
        · rw [h0] at hu2
          simp only [List.drop_zero] at hu2
          rw [hu2, Yhead out'] at hsome
          exact absurd hsome (by simp)
        · rw [hu2, Yinner v.length h0 hp out'] at hsome
          exact absurd hsome (by simp)

/-- Preservation of exact matching: if every `Y`-match in the input is
exactly the block `yr`, the scanned matcher `X` never fires on a `yr` block
(so such blocks are copied verbatim), `Y` matches `yr` at its head, and `Y`
cannot match at, inside, or across the inserted `xr` blocks, then every
`Y`-match in the output is exactly `yr`. -/
theorem scan_preserves_matches (X : List Char → Option Nat) (xr : List Char)
    (Y : List Char → Option Nat) (yr : List Char)
    (Yread : ∀ u n t, Y u = some n → Y (u.take n ++ t) = some n)
    (Ycross : ∀ w t n, w ≠ [] → Y (w ++ (xr ++ t)) = some n → n ≤ w.length)
    (Yhead : ∀ t, Y (xr ++ t) = none)
    (Yinner : ∀ p, 1 ≤ p → p < xr.length → ∀ t, Y (xr.drop p ++ t) = none)
    (Yself : ∀ t, Y (yr ++ t) = some yr.length)
    (XonY : ∀ p, p < yr.length → ∀ t, X (yr.drop p ++ t) = none) :
    ∀ s out, ScanChunks X xr s out → MatchesExact Y yr s → MatchesExact Y yr out := by
  intro s out hd
  induction hd with
  | nil => exact fun h => h
  | copy c s' out' hnone hd' ih =>
      intro hin u n hu hsome
      rcases List.suffix_cons_iff.mp hu with rfl | hu'
      · cases hy : Y (c :: s') with
        | none =>
            exact absurd hsome (fun hs =>
              scan_no_new_match X xr Y Yread Ycross s' out' hd' [c] n (by simp)
                (by simpa using hy) (by simpa using hs))
        | some j =>
            obtain ⟨hj, htake⟩ := hin (c :: s') j List.suffix_rfl hy
            have hd0 : ScanChunks X xr (c :: s') (c :: out') :=
              ScanChunks.copy c s' out' hnone hd'
            obtain ⟨houttake, -⟩ := scan_copies_foreign_block X xr yr XonY
              yr.length (c :: s') (c :: out') hd0 0 (by omega)
              (by rw [← hj]; simpa using htake)
            have hdecomp : c :: out' = yr ++ (c :: out').drop yr.length := by
              conv_lhs => rw [← List.take_append_drop yr.length (c :: out')]
              rw [houttake]
              simp
            have hYout : Y (c :: out') = some yr.length := by
              rw [hdecomp]
              exact Yself _
            rw [hYout] at hsome
            injection hsome with hsome
            refine ⟨hsome.symm, ?_⟩
            rw [← hsome]
            simpa using houttake
      · exact ih (MatchesExact_suffix Y yr (c :: s') s' hin (List.suffix_cons c s'))
          u n hu' hsome
  | replaced s' j out' hsome' hne hd' ih =>
      intro hin u n hu hsome
      have hin' := MatchesExact_suffix Y yr s' _ hin (List.drop_suffix (max j 1) s')
      obtain ⟨v, hv⟩ := hu
      have hvlen : v.length + u.length = xr.length + out'.length := by
        have := congrArg List.length hv
        simpa using this
      rcases le_or_lt u.length out'.length with hl | hl
      · have hu2 : u = out'.drop (v.length - xr.length) := by
          have h0 : (v ++ u).drop v.length = u := drop_app v u _ rfl
          rw [hv, drop_append_ge _ _ _ (by omega)] at h0
          exact h0.symm
        exact ih hin' u n (hu2 ▸ List.drop_suffix _ _) hsome
      · have hp : v.length < xr.length := by omega
        have hu2 : u = xr.drop v.length ++ out' := by
          have h0 : (v ++ u).drop v.length = u := drop_app v u _ rfl
          rw [hv, List.drop_append_of_le_length (by omega)] at h0
          exact h0.symm
        rcases Nat.eq_zero_or_pos v.length with h0 | h0
        · rw [h0] at hu2
          simp only [List.drop_zero] at hu2
          rw [hu2, Yhead out'] at hsome
          exact absurd hsome (by simp)
        · rw [hu2, Yinner v.length h0 hp out'] at hsome
          exact absurd hsome (by simp)

/-- A scan whose matcher finds nothing leaves the text unchanged. -/
theorem find_replace_all_of_nomatch (m : List Char → Option Nat) (repl : List Char) :
    ∀ fuel s, NoMatch m s → find_replace_all m repl fuel s = s := by
  intro fuel
  induction fuel with
  | zero => intro s _; cases s <;> rfl
  | succ fuel ih =>
      intro s h
      cases s with
      | nil => rfl
      | cons c rest =>
          have hnone : m (c :: rest) = none := by
            cases hm : m (c :: rest) with
            | none => rfl
            | some n => exact absurd hm (fun hh => h (c :: rest) n List.suffix_rfl hh)
          rw [show find_replace_all m repl (fuel + 1) (c :: rest)
              = (match m (c :: rest) with
                 | some n => repl ++
                     find_replace_all m repl fuel ((c :: rest).drop (max n 1))
                 | none => c :: find_replace_all m repl fuel rest) from rfl, hnone]
          exact congrArg (c :: ·)
            (ih rest (NoMatch_suffix m (c :: rest) rest h (List.suffix_cons c rest)))

/-- A scan whose every match is exactly the replacement text leaves the text
unchanged. -/
theorem find_replace_all_of_matches_exact (m : List Char → Option Nat)
    (xr : List Char) (hxr : xr ≠ []) :
    ∀ fuel s, MatchesExact m xr s → find_replace_all m xr fuel s = s := by
  intro fuel
  induction fuel with
  | zero => intro s _; cases s <;> rfl
  | succ fuel ih =>
      intro s h
      cases s with
      | nil => rfl
      | cons c rest =>
          rw [show find_replace_all m xr (fuel + 1) (c :: rest)
              = (match m (c :: rest) with
                 | some n => xr ++
                     find_replace_all m xr fuel ((c :: rest).drop (max n 1))
                 | none => c :: find_replace_all m xr fuel rest) from rfl]
          cases hm : m (c :: rest) with
          | none =>
              exact congrArg (c :: ·) (ih rest
                (MatchesExact_suffix m xr (c :: rest) rest h (List.suffix_cons c rest)))
          | some n =>
              obtain ⟨hn, htake⟩ := h (c :: rest) n List.suffix_rfl hm
              have hn1 : 1 ≤ n := by
                rw [hn]
                exact List.length_pos.mpr hxr
              show xr ++ find_replace_all m xr fuel ((c :: rest).drop (max n 1))
                = c :: rest
              rw [Nat.max_eq_left hn1]
              rw [ih ((c :: rest).drop n)
                (MatchesExact_suffix m xr (c :: rest) _ h (List.drop_suffix n _))]
              conv_rhs => rw [← List.take_append_drop n (c :: rest)]
              rw [htake]

theorem run_find_replace_of_nomatch (m : List Char → Option Nat)
    (repl s : List Char) (h : NoMatch m s) : run_find_replace m repl s = s :=
  find_replace_all_of_nomatch m repl s.length s h

theorem run_find_replace_of_matches_exact (m : List Char → Option Nat)
    (xr s : List Char) (hxr : xr ≠ []) (h : MatchesExact m xr s) :
    run_find_replace m xr s = s :=
  find_replace_all_of_matches_exact m xr hxr s.length s h

/-! ### The three matchers against the two replacement shapes -/

theorem repl_shape_length (sep1 dw mw nm y4 : List Char) :
    (repl_shape sep1 dw mw nm y4).length
      = dw.length + sep1.length + mw.length + 1 + nm.length + 2 + y4.length := by
  simp only [repl_shape, List.length_append, List.length_cons]
  omega

theorem repl_shape_ne_nil (sep1 dw mw nm y4 : List Char) :
    repl_shape sep1 dw mw nm y4 ≠ [] := by
  intro h
  have h2 := congrArg List.length h
  rw [repl_shape_length] at h2
  simp at h2

/-- Style 2 (which requires a space after the day word) cannot match at the
head of a Style 1 replacement (day word followed by `", "`). -/
theorem style2_not_at_style1_head (dw : List Char) (hdw : dw ∈ PATTERN_DAY_WORDS)
    (X : List Char) : match_style2 (dw ++ ',' :: X) = none := by
  cases hm : match_style2 (dw ++ ',' :: X) with
  | none => rfl
  | some n =>
      obtain ⟨dw', mw, k, hfw, hsep, -, -, -, -, -⟩ := match_style2_some _ _ hm
      rw [first_day_word_at dw hdw ',' (Or.inl rfl) X] at hfw
      injection hfw with hfw
      subst hfw
      rw [drop_app dw _ dw.length rfl] at hsep
      simp [ci_starts_with,
        show ci_eq_char ' ' ',' = false from by decide] at hsep

theorem placeholder_cross_block (sep1 dw mw nm y4 : List Char)
    (hsep1 : sep1 = [',', ' '] ∨ sep1 = [' ']) (hdw : dw ∈ PATTERN_DAY_WORDS) :
    ∀ w t n, w ≠ [] →
    match_placeholder (w ++ (repl_shape sep1 dw mw nm y4 ++ t)) = some n →
    n ≤ w.length := by
  intro w t n hw h
  rcases hsep1 with rfl | rfl
  · have he : w ++ (repl_shape [',', ' '] dw mw nm y4 ++ t)
        = w ++ (dw ++ ',' :: ((' ' :: (mw ++ (' ' :: (nm ++ (',' :: ' ' :: y4))))) ++ t)) := by
      simp [repl_shape]
    rw [he] at h
    exact placeholder_no_cross w dw ',' _ n hw hdw (Or.inl rfl) h
  · have he : w ++ (repl_shape [' '] dw mw nm y4 ++ t)
        = w ++ (dw ++ ' ' :: ((mw ++ (' ' :: (nm ++ (',' :: ' ' :: y4)))) ++ t)) := by
      simp [repl_shape]
    rw [he] at h
    exact placeholder_no_cross w dw ' ' _ n hw hdw (Or.inr rfl) h

theorem style1_cross_block (sep1 dw mw nm y4 : List Char)
    (hsep1 : sep1 = [',', ' '] ∨ sep1 = [' ']) (hdw : dw ∈ PATTERN_DAY_WORDS) :
    ∀ w t n, w ≠ [] →
    match_style1 (w ++ (repl_shape sep1 dw mw nm y4 ++ t)) = some n →
    n ≤ w.length := by
  intro w t n hw h
  rcases hsep1 with rfl | rfl
  · have he : w ++ (repl_shape [',', ' '] dw mw nm y4 ++ t)
        = w ++ (dw ++ ',' :: ((' ' :: (mw ++ (' ' :: (nm ++ (',' :: ' ' :: y4))))) ++ t)) := by
      simp [repl_shape]
    rw [he] at h
    exact style1_no_cross w dw ',' _ n hw hdw (Or.inl rfl) h
  · have he : w ++ (repl_shape [' '] dw mw nm y4 ++ t)
        = w ++ (dw ++ ' ' :: ((mw ++ (' ' :: (nm ++ (',' :: ' ' :: y4)))) ++ t)) := by
      simp [repl_shape]
    rw [he] at h
    exact style1_no_cross w dw ' ' _ n hw hdw (Or.inr rfl) h

theorem style2_cross_block (sep1 dw mw nm y4 : List Char)
    (hsep1 : sep1 = [',', ' '] ∨ sep1 = [' ']) (hdw : dw ∈ PATTERN_DAY_WORDS) :
    ∀ w t n, w ≠ [] →
    match_style2 (w ++ (repl_shape sep1 dw mw nm y4 ++ t)) = some n →
    n ≤ w.length := by
  intro w t n hw h
  rcases hsep1 with rfl | rfl
  · have he : w ++ (repl_shape [',', ' '] dw mw nm y4 ++ t)
        = w ++ (dw ++ ',' :: ((' ' :: (mw ++ (' ' :: (nm ++ (',' :: ' ' :: y4))))) ++ t)) := by
      simp [repl_shape]
    rw [he] at h
    exact style2_no_cross w dw ',' _ n hw hdw (Or.inl rfl) h
  · have he : w ++ (repl_shape [' '] dw mw nm y4 ++ t)
        = w ++ (dw ++ ' ' :: ((mw ++ (' ' :: (nm ++ (',' :: ' ' :: y4)))) ++ t)) := by
      simp [repl_shape]
    rw [he] at h
    exact style2_no_cross w dw ' ' _ n hw hdw (Or.inr rfl) h

theorem placeholder_head_block (sep1 dw mw nm y4 : List Char)
    (hdw : dw ∈ PATTERN_DAY_WORDS) :
    ∀ t, match_placeholder (repl_shape sep1 dw mw nm y4 ++ t) = none := by
  intro t
  have he : repl_shape sep1 dw mw nm y4 ++ t
      = dw ++ ((sep1 ++ (mw ++ (' ' :: (nm ++ (',' :: ' ' :: y4))))) ++ t) := by
    simp [repl_shape]
  rw [he]
  exact placeholder_not_at_day dw hdw _

theorem style1_head_c2_block (dw mw nm y4 : List Char)
    (hdw : dw ∈ PATTERN_DAY_WORDS) :
    ∀ t, match_style1 (repl_shape [' '] dw mw nm y4 ++ t) = none := by
  intro t
  have he : repl_shape [' '] dw mw nm y4 ++ t
      = dw ++ ' ' :: ((mw ++ (' ' :: (nm ++ (',' :: ' ' :: y4)))) ++ t) := by
    simp [repl_shape]
  rw [he]
  exact style1_not_at_style2_head dw hdw _

theorem style2_head_c1_block (dw mw nm y4 : List Char)
    (hdw : dw ∈ PATTERN_DAY_WORDS) :
    ∀ t, match_style2 (repl_shape [',', ' '] dw mw nm y4 ++ t) = none := by
  intro t
  have he : repl_shape [',', ' '] dw mw nm y4 ++ t
      = dw ++ ',' :: ((' ' :: (mw ++ (' ' :: (nm ++ (',' :: ' ' :: y4))))) ++ t) := by
    simp [repl_shape]
  rw [he]
  exact style2_not_at_style1_head dw hdw _

theorem style1_self_block (dw mw nm y4 : List Char)
    (hp : date_text_parts dw mw nm y4) :
    ∀ t, match_style1 (repl_shape [',', ' '] dw mw nm y4 ++ t)
      = some (repl_shape [',', ' '] dw mw nm y4).length := by
  intro t
  have he : repl_shape [',', ' '] dw mw nm y4 ++ t
      = dw ++ ',' :: ' ' :: (mw ++ ' ' :: (nm ++ ',' :: ' ' :: (y4 ++ t))) := by
    simp [repl_shape]
  rw [he, match_style1_self dw mw nm y4 t hp]
  have hy4 : y4.length = 4 := hp.2.2.2.2.2.2
  rw [repl_shape_length]
  simp only [Option.some.injEq, List.length_cons, List.length_nil]
  omega

theorem style2_self_block (dw mw nm y4 : List Char)
    (hp : date_text_parts dw mw nm y4) :
    ∀ t, match_style2 (repl_shape [' '] dw mw nm y4 ++ t)
      = some (repl_shape [' '] dw mw nm y4).length := by
  intro t
  have he : repl_shape [' '] dw mw nm y4 ++ t
      = dw ++ ' ' :: (mw ++ ' ' :: (nm ++ ',' :: ' ' :: (y4 ++ t))) := by
    simp [repl_shape]
  rw [he, match_style2_self dw mw nm y4 t hp]
  have hy4 : y4.length = 4 := hp.2.2.2.2.2.2
  rw [repl_shape_length]
  simp only [Option.some.injEq, List.length_cons, List.length_nil]
  omega

theorem style1_inner_block (sep1 dw mw nm y4 : List Char)
    (hsep1 : sep1 = [',', ' '] ∨ sep1 = [' '])
    (hp : date_text_parts dw mw nm y4) :
    ∀ p, 1 ≤ p → p < (repl_shape sep1 dw mw nm y4).length →
    ∀ t, match_style1 ((repl_shape sep1 dw mw nm y4).drop p ++ t) = none :=
  fun p h1 h2 t => match_style1_none_of_no_day _
    (day_alt_none_at_suffix sep1 dw mw nm y4 hsep1 hp p h1 h2 t)

theorem style2_inner_block (sep1 dw mw nm y4 : List Char)
    (hsep1 : sep1 = [',', ' '] ∨ sep1 = [' '])
    (hp : date_text_parts dw mw nm y4) :
    ∀ p, 1 ≤ p → p < (repl_shape sep1 dw mw nm y4).length →
    ∀ t, match_style2 ((repl_shape sep1 dw mw nm y4).drop p ++ t) = none :=
  fun p h1 h2 t => match_style2_none_of_no_day _
    (day_alt_none_at_suffix sep1 dw mw nm y4 hsep1 hp p h1 h2 t)

/-- The Style 2 matcher never fires anywhere on a Style 1 replacement block
(head included) — such blocks are copied verbatim by the Style 2 pass. -/
theorem style2_on_c1_none (dw mw nm y4 : List Char)
    (hp : date_text_parts dw mw nm y4) :
    ∀ p, p < (repl_shape [',', ' '] dw mw nm y4).length →
    ∀ t, match_style2 ((repl_shape [',', ' '] dw mw nm y4).drop p ++ t) = none := by
  intro p hlt t
  rcases Nat.eq_zero_or_pos p with h0 | h0
  · rw [h0]
    simp only [List.drop_zero]
    exact style2_head_c1_block dw mw nm y4 hp.1 t
  · exact style2_inner_block [',', ' '] dw mw nm y4 (Or.inl rfl) hp p h0 hlt t

/-! ### Idempotence of the three-pass rewrite -/

theorem days_in_month_le (y m : Nat) : days_in_month y m ≤ 31 := by
  unfold days_in_month
  split <;> first | (split <;> omega) | omega

/-- After one full three-pass rewrite, each pass has become the identity:
the placeholder matcher finds nothing, and each wildcard matcher only finds
occurrences of its own replacement text. -/
theorem rewrite_passes_fixpoint (dw mw nm y4 : List Char)
    (hp : date_text_parts dw mw nm y4) (t : List Char) :
    run_find_replace match_placeholder (repl_shape [',', ' '] dw mw nm y4)
      (run_find_replace match_style2 (repl_shape [' '] dw mw nm y4)
        (run_find_replace match_style1 (repl_shape [',', ' '] dw mw nm y4)
          (run_find_replace match_placeholder (repl_shape [',', ' '] dw mw nm y4) t)))
      = run_find_replace match_style2 (repl_shape [' '] dw mw nm y4)
          (run_find_replace match_style1 (repl_shape [',', ' '] dw mw nm y4)
            (run_find_replace match_placeholder (repl_shape [',', ' '] dw mw nm y4) t)) ∧
    run_find_replace match_style1 (repl_shape [',', ' '] dw mw nm y4)
      (run_find_replace match_style2 (repl_shape [' '] dw mw nm y4)
        (run_find_replace match_style1 (repl_shape [',', ' '] dw mw nm y4)
          (run_find_replace match_placeholder (repl_shape [',', ' '] dw mw nm y4) t)))
      = run_find_replace match_style2 (repl_shape [' '] dw mw nm y4)
          (run_find_replace match_style1 (repl_shape [',', ' '] dw mw nm y4)
            (run_find_replace match_placeholder (repl_shape [',', ' '] dw mw nm y4) t)) ∧
    run_find_replace match_style2 (repl_shape [' '] dw mw nm y4)
      (run_find_replace match_style2 (repl_shape [' '] dw mw nm y4)
        (run_find_replace match_style1 (repl_shape [',', ' '] dw mw nm y4)
          (run_find_replace match_placeholder (repl_shape [',', ' '] dw mw nm y4) t)))
      = run_find_replace match_style2 (repl_shape [' '] dw mw nm y4)
          (run_find_replace match_style1 (repl_shape [',', ' '] dw mw nm y4)
            (run_find_replace match_placeholder (repl_shape [',', ' '] dw mw nm y4) t)) := by
  have hdw := hp.1
  set c1 := repl_shape [',', ' '] dw mw nm y4 with hc1
  set c2 := repl_shape [' '] dw mw nm y4 with hc2
  set t0 := run_find_replace match_placeholder c1 t with ht0
  set t1 := run_find_replace match_style1 c1 t0 with ht1
  set t2 := run_find_replace match_style2 c2 t1 with ht2
  have plbound : ∀ u n, match_placeholder u = some n → 1 ≤ n ∧ n ≤ u.length :=
    fun u n h => ⟨by have := (match_placeholder_bounds u n h).1; omega,
      (match_placeholder_bounds u n h).2⟩
  have st1bound : ∀ u n, match_style1 u = some n → 1 ≤ n ∧ n ≤ u.length :=
    fun u n h => ⟨by have := (match_style1_bounds u n h).1; omega,
      (match_style1_bounds u n h).2⟩
  have st2bound : ∀ u n, match_style2 u = some n → 1 ≤ n ∧ n ≤ u.length :=
    fun u n h => ⟨by have := (match_style2_bounds u n h).1; omega,
      (match_style2_bounds u n h).2⟩
  have plread : ∀ u n t', match_placeholder u = some n →
      match_placeholder (u.take n ++ t') = some n :=
    fun u n t' h => match_placeholder_read_bounded u n h t'
  have st1read : ∀ u n t', match_style1 u = some n →
      match_style1 (u.take n ++ t') = some n :=
    fun u n t' h => match_style1_read_bounded u n h t'
  have st2read : ∀ u n t', match_style2 u = some n →
      match_style2 (u.take n ++ t') = some n :=
    fun u n t' h => match_style2_read_bounded u n h t'
  have P0 : MatchesExact match_placeholder c1 t0 :=
    scan_establishes match_placeholder c1 plbound plread
      (placeholder_cross_block [',', ' '] dw mw nm y4 (Or.inl rfl) hdw)
      (placeholder_none_at_suffix [',', ' '] dw mw nm y4 (Or.inl rfl) hp)
      (Or.inr (placeholder_head_block [',', ' '] dw mw nm y4 hdw))
      t t0 (run_find_replace_chunks _ _ t)
  have N0 : NoMatch match_placeholder t0 := by
    intro u n hu hsome
    obtain ⟨hn, -⟩ := P0 u n hu hsome
    obtain ⟨h8, -⟩ := match_placeholder_some u n hsome
    have hlen := repl_shape_length [',', ' '] dw mw nm y4
    have hd6 := (day_words_len dw hp.1).1
    have hm3 := (month_words_len mw hp.2.1).1
    have hnm := hp.2.2.2.1
    have hy4 := hp.2.2.2.2.2.2
    have hsl : ([',', ' '] : List Char).length = 2 := rfl
    rw [← hc1] at hlen
    omega
  have N1 : NoMatch match_placeholder t1 :=
    scan_preserves_nomatch match_style1 c1 match_placeholder plread
      (placeholder_cross_block [',', ' '] dw mw nm y4 (Or.inl rfl) hdw)
      (placeholder_head_block [',', ' '] dw mw nm y4 hdw)
      (placeholder_none_at_suffix [',', ' '] dw mw nm y4 (Or.inl rfl) hp)
      t0 t1 (run_find_replace_chunks _ _ t0) N0
  have N2 : NoMatch match_placeholder t2 :=
    scan_preserves_nomatch match_style2 c2 match_placeholder plread
      (placeholder_cross_block [' '] dw mw nm y4 (Or.inr rfl) hdw)
      (placeholder_head_block [' '] dw mw nm y4 hdw)
      (placeholder_none_at_suffix [' '] dw mw nm y4 (Or.inr rfl) hp)
      t1 t2 (run_find_replace_chunks _ _ t1) N1
  have E1 : MatchesExact match_style1 c1 t1 :=
    scan_establishes match_style1 c1 st1bound st1read
      (style1_cross_block [',', ' '] dw mw nm y4 (Or.inl rfl) hdw)
      (style1_inner_block [',', ' '] dw mw nm y4 (Or.inl rfl) hp)
      (Or.inl (style1_self_block dw mw nm y4 hp))
      t0 t1 (run_find_replace_chunks _ _ t0)
  have E1' : MatchesExact match_style1 c1 t2 :=
    scan_preserves_matches match_style2 c2 match_style1 c1 st1read
      (style1_cross_block [' '] dw mw nm y4 (Or.inr rfl) hdw)
      (style1_head_c2_block dw mw nm y4 hdw)
      (style1_inner_block [' '] dw mw nm y4 (Or.inr rfl) hp)
      (style1_self_block dw mw nm y4 hp)
      (style2_on_c1_none dw mw nm y4 hp)
      t1 t2 (run_find_replace_chunks _ _ t1) E1
  have E2 : MatchesExact match_style2 c2 t2 :=
    scan_establishes match_style2 c2 st2bound st2read
      (style2_cross_block [' '] dw mw nm y4 (Or.inr rfl) hdw)
      (style2_inner_block [' '] dw mw nm y4 (Or.inr rfl) hp)
      (Or.inl (style2_self_block dw mw nm y4 hp))
      t1 t2 (run_find_replace_chunks _ _ t1)
  exact ⟨run_find_replace_of_nomatch _ _ _ N2,
    run_find_replace_of_matches_exact _ _ _ (repl_shape_ne_nil _ _ _ _ _) E1',
    run_find_replace_of_matches_exact _ _ _ (repl_shape_ne_nil _ _ _ _ _) E2⟩

theorem execute_replace_fixed (doc : Document) (m : List Char → Option Nat)
    (repl : List Char)
    (h : ∀ chain ∈ doc, ∀ st ∈ chain, run_find_replace m repl st.text = st.text) :
    execute_replace doc m repl = doc := by
  unfold execute_replace
  conv_rhs => rw [← List.map_id doc]
  apply List.map_congr_left
  intro chain hchain
  simp only [id]
  conv_rhs => rw [← List.map_id chain]
  apply List.map_congr_left
  intro st hst
  simp only [id]
  rw [h chain hchain st hst]

theorem replace_dates_story_form (doc : Document) (d : Date) :
    ∀ chain ∈ replace_dates doc d, ∀ st ∈ chain, ∃ u : List Char,
      st.text = run_find_replace match_style2 (style2_replacement d)
        (run_find_replace match_style1 (style1_replacement d)
          (run_find_replace match_placeholder (style1_replacement d) u)) := by
  intro chain hchain st hst
  simp only [replace_dates, execute_replace, List.map_map, List.mem_map] at hchain
  obtain ⟨chain0, -, rfl⟩ := hchain
  simp only [List.map_map, List.mem_map, Function.comp] at hst
  obtain ⟨st0, -, rfl⟩ := hst
  exact ⟨st0.text, rfl⟩

/-- C8: the date-rewriting operation is idempotent for a fixed target date —
running `replace_dates` a second time with the same date leaves every story
text of the document unchanged (in particular no day name is ever doubled):
after the first run the placeholder matcher finds nothing and each wildcard
pattern only finds exact copies of its own replacement text, which it
replaces by itself. -/
theorem C8_replace_dates_idempotent (doc : Document) (d : Date)
    (hv : is_valid_date d) :
    replace_dates (replace_dates doc d) d = replace_dates doc d := by
  obtain ⟨-, -, hm1, hm2, -, hd2⟩ := hv
  have hday : d.day < 100 := by
    have := days_in_month_le d.year d.month
    omega
  have hp := style1_replacement_parts d hm1 hm2 hday
  have hc1 : style1_replacement d
      = repl_shape [',', ' '] (format_day_name d) (format_month_name d)
          (format_day_num d) (format_year d) := by
    simp [style1_replacement, repl_shape, SEP_COMMA]
  have hc2 : style2_replacement d
      = repl_shape [' '] (format_day_name d) (format_month_name d)
          (format_day_num d) (format_year d) := by
    simp [style2_replacement, repl_shape, SEP_COMMA]
  have hform := replace_dates_story_form doc d
  have h0 : ∀ chain ∈ replace_dates doc d, ∀ st ∈ chain,
      run_find_replace match_placeholder (style1_replacement d) st.text
        = st.text := by
    intro chain hchain st hst
    obtain ⟨u, hu⟩ := hform chain hchain st hst
    rw [hu, hc1, hc2]
    exact (rewrite_passes_fixpoint _ _ _ _ hp u).1
  have h1 : ∀ chain ∈ replace_dates doc d, ∀ st ∈ chain,
      run_find_replace match_style1 (style1_replacement d) st.text
        = st.text := by
    intro chain hchain st hst
    obtain ⟨u, hu⟩ := hform chain hchain st hst
    rw [hu, hc1, hc2]
    exact (rewrite_passes_fixpoint _ _ _ _ hp u).2.1
  have h2 : ∀ chain ∈ replace_dates doc d, ∀ st ∈ chain,
      run_find_replace match_style2 (style2_replacement d) st.text
        = st.text := by
    intro chain hchain st hst
    obtain ⟨u, hu⟩ := hform chain hchain st hst
    rw [hu, hc1, hc2]
    exact (rewrite_passes_fixpoint _ _ _ _ hp u).2.2
  show execute_replace (execute_replace (execute_replace (replace_dates doc d)
      match_placeholder (style1_replacement d)) match_style1
      (style1_replacement d)) match_style2 (style2_replacement d)
    = replace_dates doc d
  rw [execute_replace_fixed _ _ _ h0, execute_replace_fixed _ _ _ h1,
    execute_replace_fixed _ _ _ h2]

/-- Witness for C8 at a concrete document and date. -/
theorem C8_witness :
    is_valid_date ⟨2026, 1, 15⟩ ∧
    replace_dates (replace_dates [[⟨1, "Sunday, January 04, 2026".data⟩]]
        ⟨2026, 1, 15⟩) ⟨2026, 1, 15⟩
      = replace_dates [[⟨1, "Sunday, January 04, 2026".data⟩]] ⟨2026, 1, 15⟩ :=
  ⟨by decide, C8_replace_dates_idempotent _ _ (by decide)⟩

end ShiftAutomator
